import Mathlib

/-!
# Verification of the swp-charting geometry core

A shallow embedding, over exact rationals, of the geometry and
coordinate-mapping pipeline of the charting library: the linear and band
scales, the monotone cubic (Fritsch-Carlson) curve interpolator, bar-group
offset computation, pie slice aggregation/layout, y-domain inference and
tick generation.  JavaScript numbers are modelled as `ℚ`; the few spots
where IEEE special values (NaN / Infinity) are semantically load-bearing
(tick generation on a degenerate domain) use an explicit value type `F`
mirroring their propagation.  Pie angles are measured in units of `π`
(the source computes only rational multiples of `π`), so an angle value
`a : ℚ` here denotes `a * π` radians.
-/

namespace SwpCharting

/-- A pixel- or domain-space point (source: `src/types`, used by
`src/curves/monotone.ts`). -/
structure Point where
  x : ℚ
  y : ℚ
deriving DecidableEq, Repr

instance : Inhabited Point := ⟨⟨0, 0⟩⟩

/-! ## Linear scale (`src/chart.ts`, `createLinearScale`, lines 986-1001) -/

/-- `createLinearScale(domain, range)`'s `scale(value)` closure:
`if (domainSpan === 0) return r0; return r0 + ((value - d0) / domainSpan) * rangeSpan`. -/
def linearApply (d0 d1 r0 r1 v : ℚ) : ℚ :=
  if d1 - d0 = 0 then r0
  else r0 + ((v - d0) / (d1 - d0)) * (r1 - r0)

/-! ## Band scale (`src/chart.ts`, `createBandScale`, lines 1046-1082) -/

/-- The index map built by `domain.forEach((cat, i) => indexMap.set(cat, i))`:
`Map.set` overwrites, so a lookup returns the LAST index at which the label
occurs (for the duplicate-free domains of the data model this is the unique
index). -/
def bandIndex (domain : List String) (cat : String) : Option ℕ :=
  domain.enum.foldl (fun acc ic => if ic.2 = cat then some ic.1 else acc) none

/-- `createBandScale`'s `scale(category)` closure.  `paddingOuter` is
subtracted symmetrically from the range ends; a known category at index
`i` maps to the centre formula, an unknown one to `none` (JS `undefined`). -/
def bandApply (domain : List String) (r0 r1 paddingOuter : ℚ) (cat : String) : Option ℚ :=
  let adjustedR0 := r0 + paddingOuter
  let adjustedR1 := r1 - paddingOuter
  let adjustedSpan := adjustedR1 - adjustedR0
  let n := domain.length
  match bandIndex domain cat with
  | none => none
  | some index =>
      if n ≤ 1 then some (adjustedR0 + adjustedSpan / 2)
      else some (adjustedR0 + ((index : ℚ) / ((n : ℚ) - 1)) * adjustedSpan)

/-- `createBandScale`'s `bandwidth()` closure. -/
def bandBandwidth (domain : List String) (r0 r1 paddingOuter : ℚ) : ℚ :=
  let adjustedSpan := (r1 - paddingOuter) - (r0 + paddingOuter)
  if domain.length ≤ 1 then adjustedSpan
  else adjustedSpan / ((domain.length : ℚ) - 1)

/-! ### Lemmas about `bandIndex` -/

/-- Processing an enumeration block containing no occurrence of `c` leaves the
accumulator unchanged. -/
lemma bandIndex_foldl_not_mem (l : List String) (k : ℕ) (acc : Option ℕ) (c : String)
    (hc : c ∉ l) :
    (l.enumFrom k).foldl (fun acc ic => if ic.2 = c then some ic.1 else acc) acc = acc := by
  induction l generalizing k acc with
  | nil => rfl
  | cons a l ih =>
      rw [List.enumFrom_cons, List.foldl_cons]
      have ha : a ≠ c := fun h => hc (h ▸ List.mem_cons_self a l)
      rw [if_neg ha]
      exact ih (k + 1) acc (fun h => hc (List.mem_cons_of_mem a h))

/-- On a duplicate-free list the fold resolves a present label to its
(absolute) index. -/
lemma bandIndex_foldl_get (l : List String) (hnd : l.Nodup) (i : Fin l.length) (k : ℕ)
    (acc : Option ℕ) :
    (l.enumFrom k).foldl (fun acc ic => if ic.2 = l.get i then some ic.1 else acc) acc
      = some (k + i) := by
  induction l generalizing k acc with
  | nil => exact absurd i.isLt (by simp)
  | cons a l ih =>
      obtain ⟨ha, hnd'⟩ := List.nodup_cons.mp hnd
      rcases i with ⟨_ | j, hi⟩
      · have hget0 : (a :: l).get ⟨0, hi⟩ = a := rfl
        rw [hget0, List.enumFrom_cons, List.foldl_cons, if_pos rfl,
          bandIndex_foldl_not_mem l (k + 1) (some k) a ha]
        rfl
      · have hj : j < l.length := Nat.lt_of_succ_lt_succ hi
        have hget : (a :: l).get ⟨j + 1, hi⟩ = l.get ⟨j, hj⟩ := rfl
        have hne : a ≠ l.get ⟨j, hj⟩ := fun h => ha (h ▸ l.get_mem j hj)
        rw [hget, List.enumFrom_cons, List.foldl_cons, if_neg hne]
        have hrec := ih hnd' ⟨j, hj⟩ (k + 1) acc
        rw [hrec]
        show some (k + 1 + j) = some (k + (j + 1))
        congr 1
        omega

/-- `indexMap.get` returns the index of a present label (duplicate-free domain). -/
lemma bandIndex_get (l : List String) (hnd : l.Nodup) (i : Fin l.length) :
    bandIndex l (l.get i) = some i.val := by
  have h := bandIndex_foldl_get l hnd i 0 none
  simpa using h

/-- `indexMap.get` misses on an absent label. -/
lemma bandIndex_not_mem (l : List String) (c : String) (hc : c ∉ l) :
    bandIndex l c = none :=
  bandIndex_foldl_not_mem l 0 none c hc

/-- C3: a band scale over an ordered (duplicate-free, per the data model)
category list maps the category at index `i` to
`paddedStart + (i/(n-1)) * paddedSpan`; a single category maps to the padded
midpoint; `bandwidth()` is `paddedSpan/(n-1)` for `n > 1` and the full padded
span for `n == 1`; an unknown label maps to `undefined`; and the
`['Jan'..'Jun']` over `[0,500]` example evaluates as the spec states. -/
theorem C3_band_scale_positions (domain : List String) (r0 r1 p : ℚ)
    (hnd : domain.Nodup) :
    (2 ≤ domain.length → ∀ i : Fin domain.length,
      bandApply domain r0 r1 p (domain.get i) =
        some ((r0 + p) + ((i : ℚ) / ((domain.length : ℚ) - 1)) * ((r1 - p) - (r0 + p))))
    ∧ (domain.length = 1 → ∀ i : Fin domain.length,
      bandApply domain r0 r1 p (domain.get i) =
        some ((r0 + p) + ((r1 - p) - (r0 + p)) / 2))
    ∧ (2 ≤ domain.length →
      bandBandwidth domain r0 r1 p = ((r1 - p) - (r0 + p)) / ((domain.length : ℚ) - 1))
    ∧ (domain.length = 1 → bandBandwidth domain r0 r1 p = (r1 - p) - (r0 + p))
    ∧ (∀ c, c ∉ domain → bandApply domain r0 r1 p c = none)
    ∧ bandApply ["Jan", "Feb", "Mar", "Apr", "May", "Jun"] 0 500 0 "Jan" = some 0
    ∧ bandApply ["Jan", "Feb", "Mar", "Apr", "May", "Jun"] 0 500 0 "Feb" = some 100
    ∧ bandApply ["Jan", "Feb", "Mar", "Apr", "May", "Jun"] 0 500 0 "Jun" = some 500
    ∧ bandBandwidth ["Jan", "Feb", "Mar", "Apr", "May", "Jun"] 0 500 0 = 100
    ∧ bandApply ["Jan", "Feb", "Mar", "Apr", "May", "Jun"] 0 500 0 "Dec" = none := by
  refine ⟨?_, ?_, ?_, ?_, ?_, ?_, ?_, ?_, ?_, ?_⟩
  · intro hn i
    rw [bandApply]
    simp only [bandIndex_get domain hnd i]
    rw [if_neg (by omega)]
  · intro hn i
    rw [bandApply]
    simp only [bandIndex_get domain hnd i]
    rw [if_pos (by omega)]
  · intro hn
    rw [bandBandwidth, if_neg (by omega)]
  · intro hn
    rw [bandBandwidth, if_pos (by omega)]
  · intro c hc
    rw [bandApply, bandIndex_not_mem domain c hc]
  · have h : bandIndex ["Jan", "Feb", "Mar", "Apr", "May", "Jun"] "Jan" = some 0 := by decide
    rw [bandApply, h]; norm_num
  · have h : bandIndex ["Jan", "Feb", "Mar", "Apr", "May", "Jun"] "Feb" = some 1 := by decide
    rw [bandApply, h]; norm_num
  · have h : bandIndex ["Jan", "Feb", "Mar", "Apr", "May", "Jun"] "Jun" = some 5 := by decide
    rw [bandApply, h]; norm_num
  · rw [bandBandwidth]; norm_num
  · have h : bandIndex ["Jan", "Feb", "Mar", "Apr", "May", "Jun"] "Dec" = none := by decide
    rw [bandApply, h]

/-- Witness for C3 at a concrete duplicate-free domain. -/
theorem C3_band_scale_positions_witness :
    bandApply ["a", "b", "c"] 0 100 10 "b" = some 50
    ∧ bandBandwidth ["a", "b", "c"] 0 100 10 = 40 := by
  have hnd : (["a", "b", "c"] : List String).Nodup := by decide
  obtain ⟨h1, _, h3, _, _⟩ := C3_band_scale_positions ["a", "b", "c"] 0 100 10 hnd
  constructor
  · have := h1 (by norm_num) ⟨1, by norm_num⟩
    rw [show (["a", "b", "c"] : List String).get ⟨1, by norm_num⟩ = "b" from rfl] at this
    rw [this]
    norm_num
  · rw [h3 (by norm_num)]
    norm_num

/-- C4 as stated is false: on a zero-span domain the second endpoint does not
map to `r1` (domain `[0,0]`, range `[0,1]`: `apply(0) = 0 ≠ 1`), and on an
inverted domain (`d1 < d0`) `apply` is not non-decreasing even though
`r1 ≥ r0` (domain `[1,0]`, range `[0,1]`: `apply(0) = 1 > 0 = apply(1)`). -/
theorem C4_counterexample :
    (linearApply 0 0 0 1 0 = 0 ∧ (0 : ℚ) ≠ 1)
    ∧ ((0 : ℚ) ≤ 1 ∧ linearApply 1 0 0 1 0 = 1 ∧ linearApply 1 0 0 1 1 = 0
        ∧ ¬ linearApply 1 0 0 1 0 ≤ linearApply 1 0 0 1 1) := by
  simp only [linearApply]
  norm_num

/-- C4 (amended): `apply(d0) = r0` always; `apply(d1) = r1` whenever the
domain span is nonzero; for a non-inverted domain (`d0 < d1`) `apply` is
non-decreasing when `r0 ≤ r1` and non-increasing when `r1 < r0`; and a
zero-span domain maps every input to `r0`. -/
theorem C4_linear_scale (d0 d1 r0 r1 : ℚ) :
    linearApply d0 d1 r0 r1 d0 = r0
    ∧ (d0 ≠ d1 → linearApply d0 d1 r0 r1 d1 = r1)
    ∧ (d0 < d1 → r0 ≤ r1 → ∀ v w, v ≤ w →
        linearApply d0 d1 r0 r1 v ≤ linearApply d0 d1 r0 r1 w)
    ∧ (d0 < d1 → r1 < r0 → ∀ v w, v ≤ w →
        linearApply d0 d1 r0 r1 w ≤ linearApply d0 d1 r0 r1 v)
    ∧ (d0 = d1 → ∀ v, linearApply d0 d1 r0 r1 v = r0) := by
  refine ⟨?_, ?_, ?_, ?_, ?_⟩
  · rw [linearApply]
    split
    · rfl
    · ring
  · intro hne
    have hs : d1 - d0 ≠ 0 := sub_ne_zero.mpr (Ne.symm hne)
    rw [linearApply, if_neg hs]
    field_simp
  · intro hd hr v w hvw
    have hs : d1 - d0 ≠ 0 := sub_ne_zero.mpr (ne_of_gt hd)
    have key : linearApply d0 d1 r0 r1 w - linearApply d0 d1 r0 r1 v
        = ((w - v) * (r1 - r0)) / (d1 - d0) := by
      rw [linearApply, linearApply, if_neg hs, if_neg hs]
      field_simp
      ring
    have hnn : 0 ≤ ((w - v) * (r1 - r0)) / (d1 - d0) :=
      div_nonneg (mul_nonneg (by linarith) (by linarith)) (by linarith)
    linarith [key]
  · intro hd hr v w hvw
    have hs : d1 - d0 ≠ 0 := sub_ne_zero.mpr (ne_of_gt hd)
    have key : linearApply d0 d1 r0 r1 w - linearApply d0 d1 r0 r1 v
        = ((w - v) * (r1 - r0)) / (d1 - d0) := by
      rw [linearApply, linearApply, if_neg hs, if_neg hs]
      field_simp
      ring
    have hnp : ((w - v) * (r1 - r0)) / (d1 - d0) ≤ 0 := by
      apply div_nonpos_of_nonpos_of_nonneg
      · exact mul_nonpos_of_nonneg_of_nonpos (by linarith) (by linarith)
      · linarith
    linarith [key]
  · intro heq v
    rw [linearApply, if_pos (by rw [heq]; ring)]

/-- Witness for C4 (amended) at domain `[0,10]`, range `[0,100]`, and a
zero-span domain. -/
theorem C4_linear_scale_witness :
    linearApply 0 10 0 100 0 = 0
    ∧ linearApply 0 10 0 100 10 = 100
    ∧ linearApply 0 10 0 100 3 ≤ linearApply 0 10 0 100 7
    ∧ linearApply 5 5 42 99 7 = 42 := by
  obtain ⟨h1, h2, h3, _, _⟩ := C4_linear_scale 0 10 0 100
  obtain ⟨_, _, _, _, h5⟩ := C4_linear_scale 5 5 42 99
  exact ⟨h1, h2 (by norm_num), h3 (by norm_num) (by norm_num) 3 7 (by norm_num),
    h5 rfl 7⟩

/-! ## Series configuration (`src/types` as consumed by `src/chart.ts`) -/

inductive SeriesType where
  | line : SeriesType
  | bar : SeriesType
  | pie : SeriesType
deriving DecidableEq, Repr

/-- `bar.width` is `'auto' | number | undefined` in the source. -/
inductive BarWidthConfig where
  | unset : BarWidthConfig
  | auto : BarWidthConfig
  | fixed (w : ℚ) : BarWidthConfig
deriving DecidableEq, Repr

/-- A data point `{x: category, y: value}`. -/
structure DataPoint where
  x : String
  y : ℚ
deriving DecidableEq, Repr

/-- The fields of `SeriesConfig` the geometry core reads. -/
structure SeriesCfg where
  stype : SeriesType
  data : List DataPoint
  barWidth : BarWidthConfig
  yAxisIndex : ℕ
deriving DecidableEq, Repr

instance : Inhabited SeriesCfg := ⟨⟨SeriesType.line, [], BarWidthConfig.unset, 0⟩⟩

/-! ## Pie-mode detection and the mandatory category axis
(`src/chart.ts` line 95 and lines 212-215) -/

/-- `series.length > 0 && series.every((s) => s.type === 'pie')`. -/
def isPieChart (series : List SeriesCfg) : Bool :=
  decide (0 < series.length) && series.all (fun s => decide (s.stype = SeriesType.pie))

inductive ChartMode where
  | pie : ChartMode
  | axis : ChartMode
deriving DecidableEq, Repr

/-- The render-entry dispatch of `createChart`: pie mode short-circuits before
any scale is built; otherwise a missing `xAxis` throws. -/
def chartMode (series : List SeriesCfg) (xAxisCategories : Option (List String)) :
    Except String ChartMode :=
  if isPieChart series then Except.ok ChartMode.pie
  else
    match xAxisCategories with
    | none => Except.error "xAxis is required for line and bar charts"
    | some _ => Except.ok ChartMode.axis

lemma isPieChart_iff (series : List SeriesCfg) :
    isPieChart series = true ↔ series ≠ [] ∧ ∀ s ∈ series, s.stype = SeriesType.pie := by
  simp [isPieChart, List.all_eq_true, List.length_pos]

/-- C9 as stated is false: with an empty series list every series is
(vacuously) typed `pie`, yet the engine does not enter pie mode — it falls
through to the axis path and throws on the missing `xAxis`. -/
theorem C9_counterexample :
    (∀ s ∈ ([] : List SeriesCfg), s.stype = SeriesType.pie)
    ∧ chartMode [] none ≠ Except.ok ChartMode.pie
    ∧ chartMode [] none = Except.error "xAxis is required for line and bar charts" := by
  have he : chartMode [] none = Except.error "xAxis is required for line and bar charts" := rfl
  refine ⟨fun s hs => absurd hs (List.not_mem_nil s), ?_, he⟩
  intro h
  rw [he] at h
  exact Except.noConfusion h

/-- C9 (amended): pie mode is entered exactly when the series list is
nonempty and every series is typed `pie`; any configuration not in pie mode
with no category-axis configuration throws the fatal error and produces no
geometry. -/
theorem C9_pie_mode_detection (series : List SeriesCfg) (xAxisCats : Option (List String)) :
    (chartMode series xAxisCats = Except.ok ChartMode.pie
      ↔ series ≠ [] ∧ ∀ s ∈ series, s.stype = SeriesType.pie)
    ∧ (¬(series ≠ [] ∧ ∀ s ∈ series, s.stype = SeriesType.pie) →
        chartMode series none = Except.error "xAxis is required for line and bar charts") := by
  have hiff := isPieChart_iff series
  constructor
  · constructor
    · intro h
      by_cases hp : isPieChart series
      · exact hiff.mp hp
      · exfalso
        rw [chartMode.eq_def, if_neg hp] at h
        cases xAxisCats with
        | none => exact Except.noConfusion h
        | some cats => simp at h
    · intro hcond
      rw [chartMode.eq_def, if_pos (hiff.mpr hcond)]
  · intro hnot
    have hp : ¬ isPieChart series = true := fun h => hnot (hiff.mp h)
    rw [chartMode.eq_def, if_neg hp]

/-- Witness for C9 (amended): one all-pie configuration, one line
configuration without an axis. -/
theorem C9_pie_mode_detection_witness :
    chartMode [⟨SeriesType.pie, [], BarWidthConfig.unset, 0⟩] none = Except.ok ChartMode.pie
    ∧ chartMode [⟨SeriesType.line, [], BarWidthConfig.unset, 0⟩] none
        = Except.error "xAxis is required for line and bar charts" := by
  obtain ⟨h1, _⟩ := C9_pie_mode_detection [⟨SeriesType.pie, [], BarWidthConfig.unset, 0⟩] none
  obtain ⟨_, h2⟩ := C9_pie_mode_detection [⟨SeriesType.line, [], BarWidthConfig.unset, 0⟩] none
  refine ⟨h1.mpr ⟨by simp, ?_⟩, h2 ?_⟩
  · intro s hs
    rw [List.mem_singleton] at hs
    rw [hs]
  · rintro ⟨-, hall⟩
    have := hall _ (List.mem_singleton.mpr rfl)
    exact SeriesType.noConfusion this

/-! ## Y-domain inference (`src/chart.ts`, `calculateYMax` lines 523-532 and
domain resolution lines 229-253) -/

/-- `calculateYMax`: running maximum over all data points, initialised at 0,
scaled by the 1.1 headroom factor and rounded up (`Math.ceil`). -/
def calculateYMax (series : List SeriesCfg) : ℚ :=
  let mx := series.foldl
    (fun mx s => s.data.foldl (fun mx p => if mx < p.y then p.y else mx) mx) 0
  ((⌈mx * (11 / 10)⌉ : ℤ) : ℚ)

/-- The y-domain resolution of `createChart` (lines 233-235): configured
min/max win, otherwise `0` and `calculateYMax`; a degenerate `min == max`
domain is widened by `+1`. -/
def resolveYDomain (cfgMin cfgMax : Option ℚ) (series : List SeriesCfg) : ℚ × ℚ :=
  let yMin := cfgMin.getD 0
  let yMax0 := cfgMax.getD (calculateYMax series)
  (yMin, if yMin = yMax0 then yMin + 1 else yMax0)

/-- The running maximum of `calculateYMax`, written with `max`: the largest
data value across all series, floored at the initial accumulator `0`. -/
def largestValue (series : List SeriesCfg) : ℚ :=
  series.foldl (fun mx s => s.data.foldl (fun mx p => max mx p.y) mx) 0

lemma foldl_max_init_le (l : List ℚ) (b : ℚ) : b ≤ l.foldl max b := by
  induction l generalizing b with
  | nil => exact le_refl b
  | cons a l ih => exact le_trans (le_max_left b a) (ih (max b a))

lemma foldl_max_mem_le (l : List ℚ) (b x : ℚ) (hx : x ∈ l) : x ≤ l.foldl max b := by
  induction l generalizing b with
  | nil => cases hx
  | cons a l ih =>
      rw [List.foldl_cons]
      rcases List.mem_cons.mp hx with h | h
      · subst h
        exact le_trans (le_max_right b x) (foldl_max_init_le l (max b x))
      · exact ih (max b a) h

lemma largestValue_foldl_init_le (series : List SeriesCfg) (b : ℚ) :
    b ≤ series.foldl (fun mx s => s.data.foldl (fun mx p => max mx p.y) mx) b := by
  induction series generalizing b with
  | nil => exact le_refl b
  | cons s l ih =>
      rw [List.foldl_cons]
      refine le_trans ?_ (ih _)
      show b ≤ s.data.foldl (fun mx p => max mx p.y) b
      rw [← List.foldl_map DataPoint.y max]
      exact foldl_max_init_le _ b

lemma largestValue_spec (series : List SeriesCfg) :
    0 ≤ largestValue series
    ∧ ∀ s ∈ series, ∀ p ∈ s.data, p.y ≤ largestValue series := by
  constructor
  · exact largestValue_foldl_init_le series 0
  · rw [largestValue]
    generalize (0 : ℚ) = b
    induction series generalizing b with
    | nil => intro s hs; cases hs
    | cons a l ih =>
        intro s hs p hp
        rw [List.foldl_cons]
        rcases List.mem_cons.mp hs with h | h
        · subst h
          refine le_trans ?_ (largestValue_foldl_init_le l _)
          show p.y ≤ s.data.foldl (fun mx p => max mx p.y) b
          rw [← List.foldl_map DataPoint.y max]
          exact foldl_max_mem_le _ b p.y (List.mem_map_of_mem DataPoint.y hp)
        · exact ih _ s h p hp

/-- The source's `if (p.y > max) max = p.y` update is the binary `max`. -/
lemma calculateYMax_eq_max_fold (series : List SeriesCfg) :
    calculateYMax series = ((⌈largestValue series * (11 / 10)⌉ : ℤ) : ℚ) := by
  have hfun : (fun (mx : ℚ) (p : DataPoint) => if mx < p.y then p.y else mx)
      = fun mx p => max mx p.y := by
    funext mx p
    rcases lt_trichotomy mx p.y with h | h | h
    · rw [if_pos h, max_eq_right (le_of_lt h)]
    · rw [if_neg (by rw [h]; exact lt_irrefl _), h, max_self]
    · rw [if_neg (not_lt.mpr (le_of_lt h)), max_eq_left (le_of_lt h)]
  rw [calculateYMax, largestValue, hfun]

/-- `Math.ceil` of a rational at a concrete integer value, cast back to `ℚ`. -/
lemma intCeil_cast_eq (r : ℚ) (z : ℤ) (h1 : (z : ℚ) - 1 < r) (h2 : r ≤ (z : ℚ)) :
    ((⌈r⌉ : ℤ) : ℚ) = (z : ℚ) := by
  rw [Int.ceil_eq_iff.mpr ⟨h1, h2⟩]

/-- C7 as stated is false: for a single series whose only value is `-5`, the
claim's formula gives `ceil(1.1 * -5) = -5` as the axis maximum, but the code
keeps its running maximum at the initial `0` (it only replaces it with larger
values), resolves `max = ceil(0 * 1.1) = 0`, and then nudges the degenerate
`0 == 0` domain to `(0, 1)`. -/
theorem C7_counterexample :
    resolveYDomain none none
      [⟨SeriesType.line, [⟨"A", -5⟩], BarWidthConfig.unset, 0⟩] = (0, 1)
    ∧ ((⌈((-5 : ℚ)) * (11 / 10)⌉ : ℤ) : ℚ) = -5
    ∧ (1 : ℚ) ≠ -5 := by
  refine ⟨?_, ?_, by norm_num⟩
  · have hmax : calculateYMax [⟨SeriesType.line, [⟨"A", -5⟩], BarWidthConfig.unset, 0⟩] = 0 := by
      rw [calculateYMax]
      norm_num
    rw [resolveYDomain]
    simp [hmax]
  · rw [intCeil_cast_eq ((-5 : ℚ) * (11 / 10)) (-5) (by norm_num) (by norm_num)]
    norm_num

/-- C7 (amended): with no explicit min/max the minimum defaults to 0 and the
maximum is `ceil(1.1 * M)` where `M` is the largest data value across the
series routed to that axis, floored at 0 (the running maximum starts at 0, so
all-negative or empty data yields 0); a resolved `min == max` (here: the
ceiling being 0) is nudged to `max + 1`; explicitly configured bounds are
taken as-is, with the same nudge. -/
theorem C7_y_domain_inference (series : List SeriesCfg) (a b : ℚ) :
    resolveYDomain none none series
      = (0, if ((⌈largestValue series * (11 / 10)⌉ : ℤ) : ℚ) = 0 then 1
            else ((⌈largestValue series * (11 / 10)⌉ : ℤ) : ℚ))
    ∧ resolveYDomain (some a) (some b) series = (a, if a = b then a + 1 else b)
    ∧ 0 ≤ largestValue series
    ∧ (∀ s ∈ series, ∀ p ∈ s.data, p.y ≤ largestValue series) := by
  obtain ⟨h0, hub⟩ := largestValue_spec series
  refine ⟨?_, ?_, h0, hub⟩
  · rw [resolveYDomain, calculateYMax_eq_max_fold]
    simp only [Option.getD]
    by_cases h : ((⌈largestValue series * (11 / 10)⌉ : ℤ) : ℚ) = 0
    · rw [if_pos h.symm, if_pos h]
      norm_num
    · rw [if_neg (fun hh => h hh.symm), if_neg h]
  · rw [resolveYDomain]
    rfl

/-- Witness for C7 (amended) on a concrete two-series configuration. -/
theorem C7_y_domain_inference_witness :
    resolveYDomain none none
      [⟨SeriesType.bar, [⟨"A", 30⟩, ⟨"B", 45⟩], BarWidthConfig.unset, 0⟩] = (0, 50)
    ∧ resolveYDomain (some 3) (some 3)
      [⟨SeriesType.bar, [⟨"A", 30⟩], BarWidthConfig.unset, 0⟩] = (3, 4) := by
  obtain ⟨h1, _, _, _⟩ := C7_y_domain_inference
    [⟨SeriesType.bar, [⟨"A", 30⟩, ⟨"B", 45⟩], BarWidthConfig.unset, 0⟩] 0 0
  obtain ⟨_, h2, _, _⟩ := C7_y_domain_inference
    [⟨SeriesType.bar, [⟨"A", 30⟩], BarWidthConfig.unset, 0⟩] 3 3
  constructor
  · rw [h1]
    have hl : largestValue
        [⟨SeriesType.bar, [⟨"A", 30⟩, ⟨"B", 45⟩], BarWidthConfig.unset, 0⟩] = 45 := by
      rw [largestValue]
      norm_num [List.foldl_cons, List.foldl_nil, max_def]
    rw [hl]
    rw [intCeil_cast_eq ((45 : ℚ) * (11 / 10)) 50 (by norm_num) (by norm_num)]
    norm_num
  · rw [h2]
    norm_num

/-! ## Monotone cubic interpolation (`src/curves/monotone.ts`) -/

/-- `Math.sign`. -/
def signQ (t : ℚ) : ℚ :=
  if 0 < t then 1 else if t < 0 then -1 else 0

/-- The per-segment secant slope `m[i]` (lines 26-32):
`dx = next.x - curr.x`, `m[i] = dx === 0 ? 0 : dy / dx`. -/
def mSlope (ps : List Point) (i : ℕ) : ℚ :=
  if (ps.getD (i + 1) default).x - (ps.getD i default).x = 0 then 0
  else ((ps.getD (i + 1) default).y - (ps.getD i default).y)
    / ((ps.getD (i + 1) default).x - (ps.getD i default).x)

/-- The per-point tangent array (lines 34-57): endpoints copy the adjacent
secant slope; an interior point is `0` when `mPrev * mCurr <= 0`, otherwise
the mean of the adjacent slopes, snapped to `sign * 3 * min(|mPrev|, |mCurr|)`
when its magnitude exceeds that Fritsch-Carlson bound. -/
def tangent (ps : List Point) (i : ℕ) : ℚ :=
  if i = 0 then mSlope ps 0
  else if i = ps.length - 1 then mSlope ps (ps.length - 2)
  else if mSlope ps (i - 1) * mSlope ps i ≤ 0 then 0
  else if 3 * min |mSlope ps (i - 1)| |mSlope ps i|
      < |(mSlope ps (i - 1) + mSlope ps i) / 2| then
    signQ ((mSlope ps (i - 1) + mSlope ps i) / 2)
      * (3 * min |mSlope ps (i - 1)| |mSlope ps i|)
  else (mSlope ps (i - 1) + mSlope ps i) / 2

/-- The y-coordinates of the two cubic control points of segment `i`
(lines 63-73): `cp1y = p0.y + (dx/3) * tangents[i]`,
`cp2y = p1.y - (dx/3) * tangents[i+1]`. -/
def cp1y (ps : List Point) (i : ℕ) : ℚ :=
  (ps.getD i default).y
    + (((ps.getD (i + 1) default).x - (ps.getD i default).x) / 3) * tangent ps i

/-- See `cp1y`. -/
def cp2y (ps : List Point) (i : ℕ) : ℚ :=
  (ps.getD (i + 1) default).y
    - (((ps.getD (i + 1) default).x - (ps.getD i default).x) / 3) * tangent ps (i + 1)

/-- The y-coordinate of the cubic Bezier with control values
`y0, c1, c2, y1` at parameter `t` (the curve the emitted SVG `C` command
denotes). -/
def bezierY (y0 c1 c2 y1 t : ℚ) : ℚ :=
  (1 - t) ^ 3 * y0 + 3 * (1 - t) ^ 2 * t * c1 + 3 * (1 - t) * t ^ 2 * c2 + t ^ 3 * y1

/-- C1: for `n >= 3` points the secant slopes are `Δy/Δx` (0 at coincident
x); the endpoint tangents copy the adjacent segment's slope; an interior
tangent is 0 exactly when the adjacent slopes have opposite sign or either
is zero, and otherwise equals the arithmetic mean of the adjacent slopes
clamped in magnitude to `3 * min(|m[i-1]|, |m[i]|)`. -/
theorem C1_monotone_tangents (ps : List Point) (h3 : 3 ≤ ps.length) :
    (∀ i, i + 1 < ps.length →
      mSlope ps i = if (ps.getD (i + 1) default).x = (ps.getD i default).x then 0
        else ((ps.getD (i + 1) default).y - (ps.getD i default).y)
          / ((ps.getD (i + 1) default).x - (ps.getD i default).x))
    ∧ tangent ps 0 = mSlope ps 0
    ∧ tangent ps (ps.length - 1) = mSlope ps (ps.length - 2)
    ∧ (∀ i, 0 < i → i + 1 < ps.length →
        ((mSlope ps (i - 1) = 0 ∨ mSlope ps i = 0
            ∨ (mSlope ps (i - 1) < 0 ∧ 0 < mSlope ps i)
            ∨ (0 < mSlope ps (i - 1) ∧ mSlope ps i < 0)) →
          tangent ps i = 0)
        ∧ (¬(mSlope ps (i - 1) = 0 ∨ mSlope ps i = 0
            ∨ (mSlope ps (i - 1) < 0 ∧ 0 < mSlope ps i)
            ∨ (0 < mSlope ps (i - 1) ∧ mSlope ps i < 0)) →
          tangent ps i
            = max (-(3 * min |mSlope ps (i - 1)| |mSlope ps i|))
                (min (3 * min |mSlope ps (i - 1)| |mSlope ps i|)
                  ((mSlope ps (i - 1) + mSlope ps i) / 2)))) := by
  refine ⟨?_, ?_, ?_, ?_⟩
  · intro i hi
    by_cases hx : (ps.getD (i + 1) default).x = (ps.getD i default).x
    · rw [mSlope, if_pos (sub_eq_zero.mpr hx), if_pos hx]
    · rw [mSlope, if_neg (fun h => hx (sub_eq_zero.mp h)), if_neg hx]
  · rw [tangent, if_pos rfl]
  · rw [tangent, if_neg (by omega), if_pos rfl]
  · intro i hi0 hin
    have hne : i ≠ 0 := by omega
    have hne1 : i ≠ ps.length - 1 := by omega
    constructor
    · intro hdisj
      have hprod : mSlope ps (i - 1) * mSlope ps i ≤ 0 := by
        rcases hdisj with h | h | ⟨ha, hb⟩ | ⟨ha, hb⟩
        · rw [h, zero_mul]
        · rw [h, mul_zero]
        · exact le_of_lt (mul_neg_of_neg_of_pos ha hb)
        · exact le_of_lt (mul_neg_of_pos_of_neg ha hb)
      rw [tangent, if_neg hne, if_neg hne1, if_pos hprod]
    · intro hndisj
      push_neg at hndisj
      obtain ⟨h1, h2, h3', h4⟩ := hndisj
      have hsame : (0 < mSlope ps (i - 1) ∧ 0 < mSlope ps i)
          ∨ (mSlope ps (i - 1) < 0 ∧ mSlope ps i < 0) := by
        rcases lt_trichotomy (mSlope ps (i - 1)) 0 with hp | hp | hp
        · rcases lt_trichotomy (mSlope ps i) 0 with hc | hc | hc
          · exact Or.inr ⟨hp, hc⟩
          · exact absurd hc h2
          · exact absurd (h3' hp) (not_le.mpr hc)
        · exact absurd hp h1
        · rcases lt_trichotomy (mSlope ps i) 0 with hc | hc | hc
          · exact absurd (h4 hp) (not_le.mpr hc)
          · exact absurd hc h2
          · exact Or.inl ⟨hp, hc⟩
      have hprodpos : 0 < mSlope ps (i - 1) * mSlope ps i := by
        rcases hsame with ⟨hp, hc⟩ | ⟨hp, hc⟩
        · exact mul_pos hp hc
        · exact mul_pos_of_neg_of_neg hp hc
      rw [tangent, if_neg hne, if_neg hne1, if_neg (not_le.mpr hprodpos)]
      have hB0 : 0 ≤ 3 * min |mSlope ps (i - 1)| |mSlope ps i| := by positivity
      by_cases hclamp : 3 * min |mSlope ps (i - 1)| |mSlope ps i|
          < |(mSlope ps (i - 1) + mSlope ps i) / 2|
      · rw [if_pos hclamp]
        rcases hsame with ⟨hp, hc⟩ | ⟨hp, hc⟩
        · have hmean : 0 < (mSlope ps (i - 1) + mSlope ps i) / 2 := by linarith
          rw [signQ, if_pos hmean, one_mul]
          rw [abs_of_pos hmean] at hclamp
          rw [min_eq_left (le_of_lt hclamp), max_eq_right (by linarith)]
        · have hmean : (mSlope ps (i - 1) + mSlope ps i) / 2 < 0 := by linarith
          rw [signQ, if_neg (by linarith), if_pos hmean]
          rw [abs_of_neg hmean] at hclamp
          have hler : (mSlope ps (i - 1) + mSlope ps i) / 2
              ≤ 3 * min |mSlope ps (i - 1)| |mSlope ps i| := by linarith
          have hlemax : (mSlope ps (i - 1) + mSlope ps i) / 2
              ≤ -(3 * min |mSlope ps (i - 1)| |mSlope ps i|) := by linarith
          rw [min_eq_right hler, max_eq_left hlemax]
          ring
      · rw [if_neg hclamp]
        push_neg at hclamp
        obtain ⟨hlo, hhi⟩ := abs_le.mp hclamp
        rw [min_eq_right hhi, max_eq_right hlo]

/-- Witness for C1 at the 3-point peak `[(0,0),(1,2),(2,2)]`: the interior
slopes are `2` and `0`, so the peak tangent collapses to `0`. -/
theorem C1_monotone_tangents_witness :
    3 ≤ ([⟨0, 0⟩, ⟨1, 2⟩, ⟨2, 2⟩] : List Point).length
    ∧ tangent [⟨0, 0⟩, ⟨1, 2⟩, ⟨2, 2⟩] 1 = 0 := by
  refine ⟨by norm_num, ?_⟩
  have hm : mSlope [(⟨0, 0⟩ : Point), ⟨1, 2⟩, ⟨2, 2⟩] 1 = 0 := by
    rw [mSlope]
    norm_num
  exact (C1_monotone_tangents [⟨0, 0⟩, ⟨1, 2⟩, ⟨2, 2⟩] (by norm_num)).2.2.2 1
    (by norm_num) (by norm_num) |>.1 (Or.inr (Or.inl hm))

/-! ### No-overshoot of the emitted cubic segments (C2) -/

/-- Core segment bound: a cubic Hermite-style segment whose control offsets
`u0 = dx * tangent0` and `u1 = dx * tangent1` both lie in `[0, 3 * (y1 - y0)]`
stays inside `[y0, y1]` for all `t` in `[0, 1]`. -/
lemma bezier_within (y0 y1 u0 u1 t : ℚ) (ht0 : 0 ≤ t) (ht1 : t ≤ 1)
    (hu0 : 0 ≤ u0) (hu0b : u0 ≤ 3 * (y1 - y0))
    (hu1 : 0 ≤ u1) (hu1b : u1 ≤ 3 * (y1 - y0)) :
    y0 ≤ bezierY y0 (y0 + u0 / 3) (y1 - u1 / 3) y1 t
    ∧ bezierY y0 (y0 + u0 / 3) (y1 - u1 / 3) y1 t ≤ y1 := by
  have hd : 0 ≤ y1 - y0 := by linarith
  have h1t : 0 ≤ 1 - t := by linarith
  have hId1 : bezierY y0 (y0 + u0 / 3) (y1 - u1 / 3) y1 t - y0
      = (1 - t) ^ 2 * t * u0 + (1 - t) * t ^ 2 * (3 * (y1 - y0) - u1)
        + t ^ 3 * (y1 - y0) := by
    rw [bezierY]; ring
  have hId2 : y1 - bezierY y0 (y0 + u0 / 3) (y1 - u1 / 3) y1 t
      = (1 - t) ^ 3 * (y1 - y0) + (1 - t) ^ 2 * t * (3 * (y1 - y0) - u0)
        + (1 - t) * t ^ 2 * u1 := by
    rw [bezierY]; ring
  constructor
  · have e1 : 0 ≤ (1 - t) ^ 2 * t * u0 :=
      mul_nonneg (mul_nonneg (pow_nonneg h1t 2) ht0) hu0
    have e2 : 0 ≤ (1 - t) * t ^ 2 * (3 * (y1 - y0) - u1) :=
      mul_nonneg (mul_nonneg h1t (pow_nonneg ht0 2)) (by linarith)
    have e3 : 0 ≤ t ^ 3 * (y1 - y0) := mul_nonneg (pow_nonneg ht0 3) hd
    linarith [hId1]
  · have e1 : 0 ≤ (1 - t) ^ 3 * (y1 - y0) := mul_nonneg (pow_nonneg h1t 3) hd
    have e2 : 0 ≤ (1 - t) ^ 2 * t * (3 * (y1 - y0) - u0) :=
      mul_nonneg (mul_nonneg (pow_nonneg h1t 2) ht0) (by linarith)
    have e3 : 0 ≤ (1 - t) * t ^ 2 * u1 :=
      mul_nonneg (mul_nonneg h1t (pow_nonneg ht0 2)) hu1
    linarith [hId2]

/-- Secant slopes are nonnegative on strictly-increasing-x,
nondecreasing-y data. -/
lemma mSlope_nonneg (ps : List Point)
    (hx : ∀ i, i + 1 < ps.length → (ps.getD i default).x < (ps.getD (i + 1) default).x)
    (hyInc : ∀ i, i + 1 < ps.length → (ps.getD i default).y ≤ (ps.getD (i + 1) default).y)
    (i : ℕ) (hi : i + 1 < ps.length) : 0 ≤ mSlope ps i := by
  have hdx : 0 < (ps.getD (i + 1) default).x - (ps.getD i default).x := by
    have := hx i hi; linarith
  rw [mSlope, if_neg (ne_of_gt hdx)]
  exact div_nonneg (by have := hyInc i hi; linarith) (le_of_lt hdx)

/-- Interior tangent bounds on nondecreasing data: `0 ≤ tangent[j]` and
`tangent[j] ≤ 3 * m` for both adjacent secant slopes `m`. -/
lemma tangent_interior_bounds_inc (ps : List Point)
    (hx : ∀ i, i + 1 < ps.length → (ps.getD i default).x < (ps.getD (i + 1) default).x)
    (hyInc : ∀ i, i + 1 < ps.length → (ps.getD i default).y ≤ (ps.getD (i + 1) default).y)
    (j : ℕ) (hj0 : 0 < j) (hjn : j + 1 < ps.length) :
    0 ≤ tangent ps j ∧ tangent ps j ≤ 3 * mSlope ps (j - 1)
    ∧ tangent ps j ≤ 3 * mSlope ps j := by
  have hmp : 0 ≤ mSlope ps (j - 1) := mSlope_nonneg ps hx hyInc (j - 1) (by omega)
  have hmc : 0 ≤ mSlope ps j := mSlope_nonneg ps hx hyInc j hjn
  rw [tangent, if_neg (by omega : j ≠ 0), if_neg (by omega : j ≠ ps.length - 1)]
  by_cases hprod : mSlope ps (j - 1) * mSlope ps j ≤ 0
  · rw [if_pos hprod]
    exact ⟨le_refl 0, by linarith, by linarith⟩
  · rw [if_neg hprod]
    push_neg at hprod
    have hmp' : 0 < mSlope ps (j - 1) := by
      rcases lt_or_eq_of_le hmp with h | h
      · exact h
      · exfalso; rw [← h, zero_mul] at hprod; exact lt_irrefl 0 hprod
    have hmc' : 0 < mSlope ps j := by
      rcases lt_or_eq_of_le hmc with h | h
      · exact h
      · exfalso; rw [← h, mul_zero] at hprod; exact lt_irrefl 0 hprod
    have habs : min |mSlope ps (j - 1)| |mSlope ps j|
        = min (mSlope ps (j - 1)) (mSlope ps j) := by
      rw [abs_of_pos hmp', abs_of_pos hmc']
    have hminp := min_le_left (mSlope ps (j - 1)) (mSlope ps j)
    have hminc := min_le_right (mSlope ps (j - 1)) (mSlope ps j)
    have hmin0 : 0 ≤ min (mSlope ps (j - 1)) (mSlope ps j) := le_min hmp hmc
    by_cases hclamp : 3 * min |mSlope ps (j - 1)| |mSlope ps j|
        < |(mSlope ps (j - 1) + mSlope ps j) / 2|
    · rw [if_pos hclamp]
      have hmean : 0 < (mSlope ps (j - 1) + mSlope ps j) / 2 := by linarith
      rw [signQ, if_pos hmean, one_mul, habs]
      exact ⟨by linarith, by linarith, by linarith⟩
    · rw [if_neg hclamp]
      push_neg at hclamp
      rw [habs] at hclamp
      obtain ⟨hlo, hhi⟩ := abs_le.mp hclamp
      exact ⟨by linarith, by linarith, by linarith⟩

/-- Left-endpoint tangent bound for segment `i` on nondecreasing data. -/
lemma tangent_bound_left_inc (ps : List Point)
    (hx : ∀ i, i + 1 < ps.length → (ps.getD i default).x < (ps.getD (i + 1) default).x)
    (hyInc : ∀ i, i + 1 < ps.length → (ps.getD i default).y ≤ (ps.getD (i + 1) default).y)
    (i : ℕ) (hi : i + 1 < ps.length) :
    0 ≤ tangent ps i ∧ tangent ps i ≤ 3 * mSlope ps i := by
  by_cases h0 : i = 0
  · subst h0
    rw [tangent, if_pos rfl]
    have hm := mSlope_nonneg ps hx hyInc 0 hi
    exact ⟨hm, by linarith⟩
  · have hint := tangent_interior_bounds_inc ps hx hyInc i (by omega) hi
    exact ⟨hint.1, hint.2.2⟩

/-- Right-endpoint tangent bound for segment `i` on nondecreasing data. -/
lemma tangent_bound_right_inc (ps : List Point) (h3 : 3 ≤ ps.length)
    (hx : ∀ i, i + 1 < ps.length → (ps.getD i default).x < (ps.getD (i + 1) default).x)
    (hyInc : ∀ i, i + 1 < ps.length → (ps.getD i default).y ≤ (ps.getD (i + 1) default).y)
    (i : ℕ) (hi : i + 1 < ps.length) :
    0 ≤ tangent ps (i + 1) ∧ tangent ps (i + 1) ≤ 3 * mSlope ps i := by
  by_cases hL : i + 1 = ps.length - 1
  · rw [tangent, if_neg (by omega), if_pos hL]
    have hieq : ps.length - 2 = i := by omega
    rw [hieq]
    have hm := mSlope_nonneg ps hx hyInc i hi
    exact ⟨hm, by linarith⟩
  · have hint := tangent_interior_bounds_inc ps hx hyInc (i + 1) (by omega) (by omega)
    have heq : i + 1 - 1 = i := by omega
    rw [heq] at hint
    exact ⟨hint.1, hint.2.1⟩

/-- On nondecreasing data, segment `i`'s emitted cubic stays inside
`[y_i, y_{i+1}]`. -/
lemma segment_within_inc (ps : List Point) (h3 : 3 ≤ ps.length)
    (hx : ∀ i, i + 1 < ps.length → (ps.getD i default).x < (ps.getD (i + 1) default).x)
    (hyInc : ∀ i, i + 1 < ps.length → (ps.getD i default).y ≤ (ps.getD (i + 1) default).y)
    (i : ℕ) (hi : i + 1 < ps.length) (t : ℚ) (ht0 : 0 ≤ t) (ht1 : t ≤ 1) :
    (ps.getD i default).y
      ≤ bezierY (ps.getD i default).y (cp1y ps i) (cp2y ps i) (ps.getD (i + 1) default).y t
    ∧ bezierY (ps.getD i default).y (cp1y ps i) (cp2y ps i) (ps.getD (i + 1) default).y t
      ≤ (ps.getD (i + 1) default).y := by
  have hdx : 0 < (ps.getD (i + 1) default).x - (ps.getD i default).x := by
    have := hx i hi; linarith
  have hmi : mSlope ps i = ((ps.getD (i + 1) default).y - (ps.getD i default).y)
      / ((ps.getD (i + 1) default).x - (ps.getD i default).x) := by
    rw [mSlope, if_neg (ne_of_gt hdx)]
  have hmul : ((ps.getD (i + 1) default).x - (ps.getD i default).x) * mSlope ps i
      = (ps.getD (i + 1) default).y - (ps.getD i default).y := by
    have hne : (ps.getD (i + 1) default).x - (ps.getD i default).x ≠ 0 := ne_of_gt hdx
    rw [hmi, mul_comm]
    exact div_mul_cancel₀ _ hne
  obtain ⟨ht0l, ht0b⟩ := tangent_bound_left_inc ps hx hyInc i hi
  obtain ⟨ht1l, ht1b⟩ := tangent_bound_right_inc ps h3 hx hyInc i hi
  have hu0 : 0 ≤ ((ps.getD (i + 1) default).x - (ps.getD i default).x) * tangent ps i :=
    mul_nonneg (le_of_lt hdx) ht0l
  have hu0b : ((ps.getD (i + 1) default).x - (ps.getD i default).x) * tangent ps i
      ≤ 3 * ((ps.getD (i + 1) default).y - (ps.getD i default).y) := by
    have h := mul_le_mul_of_nonneg_left ht0b (le_of_lt hdx)
    nlinarith [hmul]
  have hu1 : 0 ≤ ((ps.getD (i + 1) default).x - (ps.getD i default).x) * tangent ps (i + 1) :=
    mul_nonneg (le_of_lt hdx) ht1l
  have hu1b : ((ps.getD (i + 1) default).x - (ps.getD i default).x) * tangent ps (i + 1)
      ≤ 3 * ((ps.getD (i + 1) default).y - (ps.getD i default).y) := by
    have h := mul_le_mul_of_nonneg_left ht1b (le_of_lt hdx)
    nlinarith [hmul]
  have hc1 : cp1y ps i = (ps.getD i default).y
      + (((ps.getD (i + 1) default).x - (ps.getD i default).x) * tangent ps i) / 3 := by
    rw [cp1y]; ring
  have hc2 : cp2y ps i = (ps.getD (i + 1) default).y
      - (((ps.getD (i + 1) default).x - (ps.getD i default).x) * tangent ps (i + 1)) / 3 := by
    rw [cp2y]; ring
  rw [hc1, hc2]
  exact bezier_within _ _ _ _ t ht0 ht1 hu0 hu0b hu1 hu1b

/-- Negation of the y-coordinate, used to transport the nondecreasing case to
the nonincreasing one. -/
def negP (p : Point) : Point := ⟨p.x, -p.y⟩

lemma getD_negP (ps : List Point) (k : ℕ) :
    (ps.map negP).getD k default = negP (ps.getD k default) := by
  induction ps generalizing k with
  | nil =>
      show (default : Point) = negP default
      simp [negP]
      rfl
  | cons p ps ih =>
      cases k with
      | zero => rfl
      | succ k =>
          simp only [List.map_cons, List.getD_cons_succ]
          exact ih k

lemma mSlope_negP (ps : List Point) (j : ℕ) :
    mSlope (ps.map negP) j = - mSlope ps j := by
  rw [mSlope, mSlope, getD_negP, getD_negP]
  simp only [negP]
  by_cases h : (ps.getD (j + 1) default).x - (ps.getD j default).x = 0
  · rw [if_pos h, if_pos h]
    norm_num
  · rw [if_neg h, if_neg h]
    ring

lemma signQ_neg (t : ℚ) : signQ (-t) = - signQ t := by
  rw [signQ, signQ]
  rcases lt_trichotomy t 0 with h | h | h
  · rw [if_pos (by linarith : (0 : ℚ) < -t), if_neg (by linarith : ¬ (0 : ℚ) < t),
      if_pos h]
    norm_num
  · rw [h]
    norm_num
  · rw [if_neg (by linarith : ¬ (0 : ℚ) < -t), if_pos (by linarith : -t < (0 : ℚ)),
      if_pos h]

lemma tangent_negP (ps : List Point) (i : ℕ) :
    tangent (ps.map negP) i = - tangent ps i := by
  have hlen : (ps.map negP).length = ps.length := List.length_map _ _
  rw [tangent, tangent, hlen]
  simp only [mSlope_negP]
  by_cases h0 : i = 0
  · rw [if_pos h0, if_pos h0]
  · rw [if_neg h0, if_neg h0]
    by_cases h1 : i = ps.length - 1
    · rw [if_pos h1, if_pos h1]
    · rw [if_neg h1, if_neg h1]
      have hpe : -mSlope ps (i - 1) * -mSlope ps i = mSlope ps (i - 1) * mSlope ps i := by
        ring
      rw [hpe]
      by_cases hp : mSlope ps (i - 1) * mSlope ps i ≤ 0
      · rw [if_pos hp, if_pos hp]
        norm_num
      · rw [if_neg hp, if_neg hp, abs_neg, abs_neg]
        have hmean : (-mSlope ps (i - 1) + -mSlope ps i) / 2
            = -((mSlope ps (i - 1) + mSlope ps i) / 2) := by ring
        rw [hmean, abs_neg]
        by_cases hc : 3 * min |mSlope ps (i - 1)| |mSlope ps i|
            < |(mSlope ps (i - 1) + mSlope ps i) / 2|
        · rw [if_pos hc, if_pos hc, signQ_neg]
          ring
        · rw [if_neg hc, if_neg hc]

lemma cp1y_negP (ps : List Point) (i : ℕ) : cp1y (ps.map negP) i = - cp1y ps i := by
  rw [cp1y, cp1y, getD_negP, getD_negP, tangent_negP]
  simp only [negP]
  ring

lemma cp2y_negP (ps : List Point) (i : ℕ) : cp2y (ps.map negP) i = - cp2y ps i := by
  rw [cp2y, cp2y, getD_negP, getD_negP, tangent_negP]
  simp only [negP]
  ring

lemma bezierY_neg (y0 c1 c2 y1 t : ℚ) :
    bezierY (-y0) (-c1) (-c2) (-y1) t = - bezierY y0 c1 c2 y1 t := by
  rw [bezierY, bezierY]; ring

/-- C2: on 3+ points with strictly increasing x and monotone (nondecreasing or
nonincreasing) y, every emitted cubic segment stays inside the closed interval
spanned by its two endpoint data values for every `t` in `[0,1]`. -/
theorem C2_monotone_no_overshoot (ps : List Point) (h3 : 3 ≤ ps.length)
    (hx : ∀ i, i + 1 < ps.length → (ps.getD i default).x < (ps.getD (i + 1) default).x)
    (hmono : (∀ i, i + 1 < ps.length → (ps.getD i default).y ≤ (ps.getD (i + 1) default).y)
      ∨ (∀ i, i + 1 < ps.length → (ps.getD (i + 1) default).y ≤ (ps.getD i default).y)) :
    ∀ i, i + 1 < ps.length → ∀ t, 0 ≤ t → t ≤ 1 →
      min (ps.getD i default).y (ps.getD (i + 1) default).y
        ≤ bezierY (ps.getD i default).y (cp1y ps i) (cp2y ps i)
            (ps.getD (i + 1) default).y t
      ∧ bezierY (ps.getD i default).y (cp1y ps i) (cp2y ps i)
            (ps.getD (i + 1) default).y t
        ≤ max (ps.getD i default).y (ps.getD (i + 1) default).y := by
  intro i hi t ht0 ht1
  rcases hmono with hyInc | hyDec
  · rw [min_eq_left (hyInc i hi), max_eq_right (hyInc i hi)]
    exact segment_within_inc ps h3 hx hyInc i hi t ht0 ht1
  · have hlen : (ps.map negP).length = ps.length := List.length_map _ _
    have hxN : ∀ j, j + 1 < (ps.map negP).length →
        ((ps.map negP).getD j default).x < ((ps.map negP).getD (j + 1) default).x := by
      intro j hj
      rw [getD_negP, getD_negP]
      simp only [negP]
      exact hx j (by rw [hlen] at hj; exact hj)
    have hyN : ∀ j, j + 1 < (ps.map negP).length →
        ((ps.map negP).getD j default).y ≤ ((ps.map negP).getD (j + 1) default).y := by
      intro j hj
      rw [getD_negP, getD_negP]
      simp only [negP]
      have := hyDec j (by rw [hlen] at hj; exact hj)
      linarith
    have h := segment_within_inc (ps.map negP) (by rw [hlen]; exact h3) hxN hyN i
      (by rw [hlen]; exact hi) t ht0 ht1
    rw [getD_negP, getD_negP, cp1y_negP, cp2y_negP] at h
    simp only [negP] at h
    rw [bezierY_neg] at h
    obtain ⟨ha, hb⟩ := h
    rw [min_eq_right (hyDec i hi), max_eq_left (hyDec i hi)]
    constructor <;> linarith

/-- Witness for C2 on the increasing sequence `[(0,0),(1,1),(2,4)]`,
segment 0, `t = 1/2`. -/
theorem C2_monotone_no_overshoot_witness :
    min (0 : ℚ) 1
      ≤ bezierY 0 (cp1y [⟨0, 0⟩, ⟨1, 1⟩, ⟨2, 4⟩] 0) (cp2y [⟨0, 0⟩, ⟨1, 1⟩, ⟨2, 4⟩] 0) 1 (1 / 2)
    ∧ bezierY 0 (cp1y [⟨0, 0⟩, ⟨1, 1⟩, ⟨2, 4⟩] 0) (cp2y [⟨0, 0⟩, ⟨1, 1⟩, ⟨2, 4⟩] 0) 1 (1 / 2)
      ≤ max (0 : ℚ) 1 := by
  have e0 : ([⟨0, 0⟩, ⟨1, 1⟩, ⟨2, 4⟩] : List Point).getD 0 default = ⟨0, 0⟩ := rfl
  have e1 : ([⟨0, 0⟩, ⟨1, 1⟩, ⟨2, 4⟩] : List Point).getD 1 default = ⟨1, 1⟩ := rfl
  have e2 : ([⟨0, 0⟩, ⟨1, 1⟩, ⟨2, 4⟩] : List Point).getD 2 default = ⟨2, 4⟩ := rfl
  have h := C2_monotone_no_overshoot [⟨0, 0⟩, ⟨1, 1⟩, ⟨2, 4⟩] (by norm_num)
    (by
      intro i hi
      have hle : i ≤ 1 := by simp at hi; omega
      interval_cases i
      · rw [e0, e1]; norm_num
      · rw [e1, e2]; norm_num)
    (Or.inl (by
      intro i hi
      have hle : i ≤ 1 := by simp at hi; omega
      interval_cases i
      · rw [e0, e1]; norm_num
      · rw [e1, e2]; norm_num))
    0 (by norm_num) (1 / 2) (by norm_num) (by norm_num)
  rw [e0, e1] at h
  exact h

/-! ## Pie geometry (`src/render/pie.ts`, `renderPie`, lines 36-119).

The source only ever computes rational multiples of `π`: all angles here are
measured in units of `π`, so a stored angle `a` denotes `a * π` radians and
the initial 12-o'clock angle `-π/2` is `-(1/2)`. -/

structure PieSliceQ where
  seriesIndex : ℕ
  value : ℚ
  percent : ℚ
  startAngle : ℚ
  endAngle : ℚ
  midAngle : ℚ
  breakdown : Option (List (String × ℚ))
deriving DecidableEq, Repr

instance : Inhabited PieSliceQ := ⟨⟨0, 0, 0, 0, 0, 0, none⟩⟩

/-- The grand total (lines 43-50): every pie-typed series' data points summed. -/
def pieTotal (series : List SeriesCfg) : ℚ :=
  series.foldl
    (fun tot s =>
      if s.stype = SeriesType.pie then s.data.foldl (fun tot p => tot + p.y) tot else tot)
    0

/-- The slice loop (lines 57-116): skips non-pie or empty series, otherwise
emits one slice and advances `currentAngle` by the slice's full angular span. -/
def pieLoop (total padAngle : ℚ) : List SeriesCfg → ℕ → ℚ → List PieSliceQ
  | [], _, _ => []
  | s :: rest, i, currentAngle =>
      if s.stype = SeriesType.pie ∧ s.data ≠ [] then
        PieSliceQ.mk i
          (s.data.foldl (fun sum p => sum + p.y) 0)
          (s.data.foldl (fun sum p => sum + p.y) 0 / total * 100)
          (currentAngle + padAngle / 2)
          (currentAngle + (s.data.foldl (fun sum p => sum + p.y) 0 / total * 2) - padAngle / 2)
          ((currentAngle + padAngle / 2
            + (currentAngle + (s.data.foldl (fun sum p => sum + p.y) 0 / total * 2)
              - padAngle / 2)) / 2)
          (if 1 < s.data.length then some (s.data.map (fun p => (p.x, p.y))) else none)
        :: pieLoop total padAngle rest (i + 1)
            (currentAngle + s.data.foldl (fun sum p => sum + p.y) 0 / total * 2)
      else pieLoop total padAngle rest (i + 1) currentAngle

/-- `renderPie` (angles in units of `π`): `padAngle` converts from degrees via
`* π/180`; a zero grand total yields no slices. -/
def renderPie (series : List SeriesCfg) (padAngleDeg : ℚ) : List PieSliceQ × ℚ :=
  if pieTotal series = 0 then ([], 0)
  else (pieLoop (pieTotal series) (padAngleDeg * (1 / 180)) series 0 (-(1 / 2)),
    pieTotal series)

lemma foldl_add_y (l : List DataPoint) (b : ℚ) :
    l.foldl (fun sum p => sum + p.y) b = b + (l.map DataPoint.y).sum := by
  induction l generalizing b with
  | nil => simp
  | cons p l ih =>
      rw [List.foldl_cons, ih, List.map_cons, List.sum_cons]
      ring

lemma pieTotal_all_pie (series : List SeriesCfg)
    (hall : ∀ s ∈ series, s.stype = SeriesType.pie) :
    pieTotal series = (series.map (fun s => (s.data.map DataPoint.y).sum)).sum := by
  rw [pieTotal]
  have haux : ∀ (l : List SeriesCfg) (b : ℚ), (∀ s ∈ l, s.stype = SeriesType.pie) →
      l.foldl (fun tot s =>
        if s.stype = SeriesType.pie then s.data.foldl (fun tot p => tot + p.y) tot else tot) b
      = b + (l.map (fun s => (s.data.map DataPoint.y).sum)).sum := by
    intro l
    induction l with
    | nil => intro b _; simp
    | cons s l ih =>
        intro b hl
        rw [List.foldl_cons, if_pos (hl s (List.mem_cons_self s l)), foldl_add_y,
          ih _ (fun a ha => hl a (List.mem_cons_of_mem s ha)), List.map_cons, List.sum_cons]
        ring
  rw [haux series 0 hall]
  ring

lemma pieLoop_mem (total pad : ℚ) (rest : List SeriesCfg) :
    ∀ (i : ℕ) (ang : ℚ) (sl : PieSliceQ), sl ∈ pieLoop total pad rest i ang →
    ∃ k, k < rest.length ∧ sl.seriesIndex = i + k
      ∧ sl.value = ((rest.getD k default).data.map DataPoint.y).sum
      ∧ sl.percent = sl.value / total * 100
      ∧ sl.endAngle - sl.startAngle = 2 * (sl.value / total) - pad := by
  induction rest with
  | nil =>
      intro i ang sl hsl
      rw [pieLoop] at hsl
      cases hsl
  | cons s rest ih =>
      intro i ang sl hsl
      rw [pieLoop] at hsl
      by_cases hc : s.stype = SeriesType.pie ∧ s.data ≠ []
      · rw [if_pos hc] at hsl
        rcases List.mem_cons.mp hsl with h | h
        · subst h
          refine ⟨0, by simp, by simp, ?_, rfl, ?_⟩
          · show s.data.foldl (fun sum p => sum + p.y) 0
              = (((s :: rest).getD 0 default).data.map DataPoint.y).sum
            rw [foldl_add_y, List.getD_cons_zero, zero_add]
          · show (ang + (s.data.foldl (fun sum p => sum + p.y) 0 / total * 2) - pad / 2)
              - (ang + pad / 2)
              = 2 * (s.data.foldl (fun sum p => sum + p.y) 0 / total) - pad
            ring
        · obtain ⟨k, hk, hidx, hval, hpct, hspan⟩ := ih (i + 1) _ sl h
          refine ⟨k + 1, by simpa using Nat.succ_lt_succ hk, by omega, ?_, hpct, hspan⟩
          rw [List.getD_cons_succ]
          exact hval
      · rw [if_neg hc] at hsl
        obtain ⟨k, hk, hidx, hval, hpct, hspan⟩ := ih (i + 1) ang sl hsl
        refine ⟨k + 1, by simpa using Nat.succ_lt_succ hk, by omega, ?_, hpct, hspan⟩
        rw [List.getD_cons_succ]
        exact hval

lemma pieLoop_head_start (total pad : ℚ) (rest : List SeriesCfg) :
    ∀ (i : ℕ) (ang : ℚ), pieLoop total pad rest i ang ≠ [] →
    ((pieLoop total pad rest i ang).headD default).startAngle = ang + pad / 2 := by
  induction rest with
  | nil =>
      intro i ang h
      rw [pieLoop] at h
      exact absurd rfl h
  | cons s rest ih =>
      intro i ang h
      rw [pieLoop] at h ⊢
      by_cases hc : s.stype = SeriesType.pie ∧ s.data ≠ []
      · rw [if_pos hc]
        rfl
      · rw [if_neg hc] at h ⊢
        exact ih _ _ h

lemma pieLoop_chain (total pad : ℚ) (rest : List SeriesCfg) :
    ∀ (i : ℕ) (ang : ℚ) (j : ℕ), j + 1 < (pieLoop total pad rest i ang).length →
    ((pieLoop total pad rest i ang).getD (j + 1) default).startAngle
      = ((pieLoop total pad rest i ang).getD j default).endAngle + pad := by
  induction rest with
  | nil =>
      intro i ang j hj
      rw [pieLoop] at hj
      simp at hj
  | cons s rest ih =>
      intro i ang j hj
      rw [pieLoop] at hj ⊢
      by_cases hc : s.stype = SeriesType.pie ∧ s.data ≠ []
      · rw [if_pos hc] at hj ⊢
        cases j with
        | zero =>
            simp only [List.getD_cons_succ, List.getD_cons_zero]
            have hne : pieLoop total pad rest (i + 1)
                (ang + s.data.foldl (fun sum p => sum + p.y) 0 / total * 2) ≠ [] := by
              intro hnil
              rw [List.length_cons, hnil] at hj
              simp at hj
            have hstart := pieLoop_head_start total pad rest (i + 1) _ hne
            obtain ⟨a, L2, hL⟩ := List.exists_cons_of_ne_nil hne
            rw [hL] at hstart ⊢
            simp only [List.headD_cons] at hstart
            simp only [List.getD_cons_zero]
            rw [hstart]
            show ang + s.data.foldl (fun sum p => sum + p.y) 0 / total * 2 + pad / 2
              = (ang + s.data.foldl (fun sum p => sum + p.y) 0 / total * 2 - pad / 2) + pad
            ring
        | succ j =>
            simp only [List.getD_cons_succ]
            apply ih
            rw [List.length_cons] at hj
            omega
      · rw [if_neg hc] at hj ⊢
        exact ih _ _ _ hj

lemma pieLoop_value_sum (total pad : ℚ) (rest : List SeriesCfg) :
    ∀ (i : ℕ) (ang : ℚ), (∀ s ∈ rest, s.stype = SeriesType.pie) →
    ((pieLoop total pad rest i ang).map PieSliceQ.value).sum
      = (rest.map (fun s => (s.data.map DataPoint.y).sum)).sum := by
  induction rest with
  | nil =>
      intro i ang _
      rw [pieLoop]
      simp
  | cons s rest ih =>
      intro i ang hall
      rw [pieLoop]
      by_cases hc : s.stype = SeriesType.pie ∧ s.data ≠ []
      · rw [if_pos hc]
        simp only [List.map_cons, List.sum_cons]
        rw [ih _ _ (fun a ha => hall a (List.mem_cons_of_mem s ha))]
        show s.data.foldl (fun sum p => sum + p.y) 0 + _ = _
        rw [foldl_add_y, zero_add]
      · rw [if_neg hc]
        have hpie : s.stype = SeriesType.pie := hall s (List.mem_cons_self s rest)
        have hdata : s.data = [] := by
          by_contra hne
          exact hc ⟨hpie, hne⟩
        rw [ih _ _ (fun a ha => hall a (List.mem_cons_of_mem s ha)), List.map_cons,
          List.sum_cons, hdata]
        simp

lemma pieLoop_percent_sum (total pad : ℚ) (rest : List SeriesCfg) :
    ∀ (i : ℕ) (ang : ℚ),
    ((pieLoop total pad rest i ang).map PieSliceQ.percent).sum
      = ((pieLoop total pad rest i ang).map PieSliceQ.value).sum / total * 100 := by
  induction rest with
  | nil =>
      intro i ang
      rw [pieLoop]
      simp
  | cons s rest ih =>
      intro i ang
      rw [pieLoop]
      by_cases hc : s.stype = SeriesType.pie ∧ s.data ≠ []
      · rw [if_pos hc]
        simp only [List.map_cons, List.sum_cons]
        rw [ih]
        show s.data.foldl (fun sum p => sum + p.y) 0 / total * 100 + _ = _
        ring
      · rw [if_neg hc]
        exact ih _ _

lemma pieLoop_span_sum (total pad : ℚ) (rest : List SeriesCfg) :
    ∀ (i : ℕ) (ang : ℚ),
    ((pieLoop total pad rest i ang).map (fun sl => sl.endAngle - sl.startAngle)).sum
      = ((pieLoop total pad rest i ang).map PieSliceQ.value).sum / total * 2
        - pad * (pieLoop total pad rest i ang).length := by
  induction rest with
  | nil =>
      intro i ang
      rw [pieLoop]
      simp
  | cons s rest ih =>
      intro i ang
      rw [pieLoop]
      by_cases hc : s.stype = SeriesType.pie ∧ s.data ≠ []
      · rw [if_pos hc]
        simp only [List.map_cons, List.sum_cons, List.length_cons]
        rw [ih]
        show (ang + s.data.foldl (fun sum p => sum + p.y) 0 / total * 2 - pad / 2)
            - (ang + pad / 2) + _ = _
        push_cast
        ring
      · rw [if_neg hc]
        exact ih _ _

/-- The emitted slices' series indices are exactly the indices of the
series with a nonempty data list, in order (the loop at pie.ts line 61 skips
`!s || s.type !== 'pie' || s.data.length === 0`). -/
lemma pieLoop_indices (total pad : ℚ) (rest : List SeriesCfg) :
    ∀ (i : ℕ) (ang : ℚ), (∀ s ∈ rest, s.stype = SeriesType.pie) →
    (pieLoop total pad rest i ang).map PieSliceQ.seriesIndex
      = ((List.range rest.length).filter
          (fun j => decide ((rest.getD j default).data ≠ []))).map (fun j => j + i) := by
  induction rest with
  | nil =>
      intro i ang _
      rw [pieLoop]
      simp
  | cons s rest ih =>
      intro i ang hall
      rw [pieLoop]
      have hfe : ((fun j => j + i) ∘ Nat.succ) = fun j : ℕ => j + (i + 1) := by
        funext j
        simp only [Function.comp_apply]
        omega
      have hpe : ((fun j => decide (((s :: rest).getD j default).data ≠ [])) ∘ Nat.succ)
          = fun j : ℕ => decide ((rest.getD j default).data ≠ []) := by
        funext j
        simp only [Function.comp_apply]
        rw [show Nat.succ j = j + 1 from rfl, List.getD_cons_succ]
      rw [List.length_cons, List.range_succ_eq_map]
      by_cases hc : s.stype = SeriesType.pie ∧ s.data ≠ []
      · rw [if_pos hc]
        simp only [List.map_cons]
        rw [ih (i + 1) _ (fun a ha => hall a (List.mem_cons_of_mem s ha)),
          List.filter_cons_of_pos (by simpa using hc.2),
          List.filter_map, List.map_cons, List.map_map, hfe, hpe]
        simp
      · rw [if_neg hc]
        have hpie : s.stype = SeriesType.pie := hall s (List.mem_cons_self s rest)
        have hdata : s.data = [] := by
          by_contra hne
          exact hc ⟨hpie, hne⟩
        rw [ih (i + 1) _ (fun a ha => hall a (List.mem_cons_of_mem s ha)),
          List.filter_cons_of_neg (by simp [hdata]),
          List.filter_map, List.map_map, hfe, hpe]

/-- C6 as stated is false: a pie-mode configuration may contain a pie series
with an empty data list, and `renderPie` skips it (pie.ts line 61), so not
every pie series contributes a slice.  With series
`[pie with no data, pie with one point y = 5]` the grand total is 5 and a
single slice is emitted for the two pie series. -/
theorem C6_counterexample :
    (∀ s ∈ [(⟨SeriesType.pie, [], BarWidthConfig.unset, 0⟩ : SeriesCfg),
        ⟨SeriesType.pie, [⟨"a", 5⟩], BarWidthConfig.unset, 0⟩], s.stype = SeriesType.pie)
    ∧ pieTotal [(⟨SeriesType.pie, [], BarWidthConfig.unset, 0⟩ : SeriesCfg),
        ⟨SeriesType.pie, [⟨"a", 5⟩], BarWidthConfig.unset, 0⟩] = 5
    ∧ ((renderPie [(⟨SeriesType.pie, [], BarWidthConfig.unset, 0⟩ : SeriesCfg),
        ⟨SeriesType.pie, [⟨"a", 5⟩], BarWidthConfig.unset, 0⟩] 0).1).length = 1
    ∧ ([(⟨SeriesType.pie, [], BarWidthConfig.unset, 0⟩ : SeriesCfg),
        ⟨SeriesType.pie, [⟨"a", 5⟩], BarWidthConfig.unset, 0⟩] : List SeriesCfg).length = 2
    ∧ (1 : ℕ) ≠ 2 := by
  have htot : pieTotal [(⟨SeriesType.pie, [], BarWidthConfig.unset, 0⟩ : SeriesCfg),
      ⟨SeriesType.pie, [⟨"a", 5⟩], BarWidthConfig.unset, 0⟩] = 5 := by
    rw [pieTotal]
    norm_num [List.foldl_cons, List.foldl_nil]
  refine ⟨?_, htot, ?_, rfl, by norm_num⟩
  · intro s hs
    simp only [List.mem_cons, List.not_mem_nil, or_false] at hs
    rcases hs with rfl | rfl <;> rfl
  · rw [renderPie, if_neg (by rw [htot]; norm_num)]
    show (pieLoop _ _ _ 0 _).length = 1
    rw [pieLoop, if_neg (by simp), pieLoop, if_pos ⟨rfl, by simp⟩, pieLoop]
    rfl

/-- C6 (amended): in pie mode each pie series **with a nonempty data list**
contributes exactly one slice (empty-data pie series are skipped), valued at
the sum of its data points, `percent = value / grandTotal * 100` with the
grand total summing every series' aggregate; slices are laid out sequentially
from the 12-o'clock angle `-π/2` (here `-(1/2)` in units of `π`), each
spanning `2π * value/total` minus `padAngle/2` at each end; a zero grand
total emits no slices; and with `padAngle = 0` the percents sum to 100 and
the spans to `2π`. -/
theorem C6_pie_slices (series : List SeriesCfg) (padDeg : ℚ)
    (hall : ∀ s ∈ series, s.stype = SeriesType.pie) :
    pieTotal series = (series.map (fun s => (s.data.map DataPoint.y).sum)).sum
    ∧ (pieTotal series = 0 → renderPie series padDeg = ([], 0))
    ∧ (∀ sl ∈ (renderPie series padDeg).1,
        sl.seriesIndex < series.length
        ∧ sl.value = ((series.getD sl.seriesIndex default).data.map DataPoint.y).sum
        ∧ sl.percent = sl.value / pieTotal series * 100
        ∧ sl.endAngle - sl.startAngle
            = 2 * (sl.value / pieTotal series) - padDeg * (1 / 180))
    ∧ ((renderPie series padDeg).1 ≠ [] →
        ((renderPie series padDeg).1.headD default).startAngle
          = -(1 / 2) + padDeg * (1 / 180) / 2)
    ∧ (∀ j, j + 1 < (renderPie series padDeg).1.length →
        ((renderPie series padDeg).1.getD (j + 1) default).startAngle
          = ((renderPie series padDeg).1.getD j default).endAngle + padDeg * (1 / 180))
    ∧ (pieTotal series ≠ 0 →
        ((renderPie series 0).1.map PieSliceQ.percent).sum = 100
        ∧ ((renderPie series 0).1.map (fun sl => sl.endAngle - sl.startAngle)).sum = 2)
    ∧ (pieTotal series ≠ 0 →
        (renderPie series padDeg).1.map PieSliceQ.seriesIndex
          = (List.range series.length).filter
              (fun i => decide ((series.getD i default).data ≠ []))) := by
  refine ⟨pieTotal_all_pie series hall, ?_, ?_, ?_, ?_, ?_, ?_⟩
  · intro h
    rw [renderPie, if_pos h]
  · intro sl hsl
    by_cases htot : pieTotal series = 0
    · rw [renderPie, if_pos htot] at hsl
      simp at hsl
    · rw [renderPie, if_neg htot] at hsl
      have hsl' : sl ∈ pieLoop (pieTotal series) (padDeg * (1 / 180)) series 0 (-(1 / 2)) :=
        hsl
      obtain ⟨k, hk, hidx, hval, hpct, hspan⟩ :=
        pieLoop_mem (pieTotal series) (padDeg * (1 / 180)) series 0 (-(1 / 2)) sl hsl'
      refine ⟨by omega, ?_, hpct, hspan⟩
      rw [hidx, Nat.zero_add]
      exact hval
  · intro hne
    by_cases htot : pieTotal series = 0
    · rw [renderPie, if_pos htot] at hne
      exact absurd rfl hne
    · rw [renderPie, if_neg htot] at hne ⊢
      exact pieLoop_head_start (pieTotal series) (padDeg * (1 / 180)) series 0 (-(1 / 2)) hne
  · intro j hj
    by_cases htot : pieTotal series = 0
    · rw [renderPie, if_pos htot] at hj
      simp at hj
    · rw [renderPie, if_neg htot] at hj ⊢
      exact pieLoop_chain (pieTotal series) (padDeg * (1 / 180)) series 0 (-(1 / 2)) j hj
  · intro htot
    rw [renderPie, if_neg htot]
    have h0 : (0 : ℚ) * (1 / 180) = 0 := by norm_num
    constructor
    · show ((pieLoop (pieTotal series) (0 * (1 / 180)) series 0 (-(1 / 2))).map
          PieSliceQ.percent).sum = 100
      rw [pieLoop_percent_sum, pieLoop_value_sum _ _ series 0 _ hall,
        ← pieTotal_all_pie series hall, div_self htot, one_mul]
    · show ((pieLoop (pieTotal series) (0 * (1 / 180)) series 0 (-(1 / 2))).map
          (fun sl => sl.endAngle - sl.startAngle)).sum = 2
      rw [h0, pieLoop_span_sum, pieLoop_value_sum _ _ series 0 _ hall,
        ← pieTotal_all_pie series hall, div_self htot]
      simp
  · intro htot
    rw [renderPie, if_neg htot]
    have h := pieLoop_indices (pieTotal series) (padDeg * (1 / 180)) series 0 (-(1 / 2)) hall
    rw [h]
    have hid : (fun j : ℕ => j + 0) = id := by
      funext j
      rfl
    rw [hid, List.map_id]

/-- Witness for C6 on three single-point pie series valued `[350, 280, 120]`. -/
theorem C6_pie_slices_witness :
    ((renderPie
        [⟨SeriesType.pie, [⟨"a", 350⟩], BarWidthConfig.unset, 0⟩,
         ⟨SeriesType.pie, [⟨"b", 280⟩], BarWidthConfig.unset, 0⟩,
         ⟨SeriesType.pie, [⟨"c", 120⟩], BarWidthConfig.unset, 0⟩] 0).1.map
      PieSliceQ.percent).sum = 100
    ∧ ((renderPie
        [⟨SeriesType.pie, [⟨"a", 350⟩], BarWidthConfig.unset, 0⟩,
         ⟨SeriesType.pie, [⟨"b", 280⟩], BarWidthConfig.unset, 0⟩,
         ⟨SeriesType.pie, [⟨"c", 120⟩], BarWidthConfig.unset, 0⟩] 0).1.map
      (fun sl => sl.endAngle - sl.startAngle)).sum = 2 := by
  have hall : ∀ s ∈ [(⟨SeriesType.pie, [⟨"a", 350⟩], BarWidthConfig.unset, 0⟩ : SeriesCfg),
      ⟨SeriesType.pie, [⟨"b", 280⟩], BarWidthConfig.unset, 0⟩,
      ⟨SeriesType.pie, [⟨"c", 120⟩], BarWidthConfig.unset, 0⟩],
      s.stype = SeriesType.pie := by
    intro s hs
    simp only [List.mem_cons, List.not_mem_nil, or_false] at hs
    rcases hs with rfl | rfl | rfl <;> rfl
  have htot : pieTotal [(⟨SeriesType.pie, [⟨"a", 350⟩], BarWidthConfig.unset, 0⟩ : SeriesCfg),
      ⟨SeriesType.pie, [⟨"b", 280⟩], BarWidthConfig.unset, 0⟩,
      ⟨SeriesType.pie, [⟨"c", 120⟩], BarWidthConfig.unset, 0⟩] = 750 := by
    rw [pieTotal]
    norm_num [List.foldl_cons, List.foldl_nil]
  have h := (C6_pie_slices
    [⟨SeriesType.pie, [⟨"a", 350⟩], BarWidthConfig.unset, 0⟩,
     ⟨SeriesType.pie, [⟨"b", 280⟩], BarWidthConfig.unset, 0⟩,
     ⟨SeriesType.pie, [⟨"c", 120⟩], BarWidthConfig.unset, 0⟩] 0 hall).2.2.2.2.2.1
    (by rw [htot]; norm_num)
  exact h

/-! ## Bar grouping (`src/chart.ts` lines 183-193 and the `renderBar` module).

The JS `Map<string, number[]>` is modelled as an insertion-ordered
association list: `Map.get` scans for the key, `Map.set` overwrites the first
matching entry or appends. -/

def mapGet (m : List (String × List ℕ)) (k : String) : Option (List ℕ) :=
  (m.find? (fun e => decide (e.1 = k))).map (fun e => e.2)

def mapSet : List (String × List ℕ) → String → List ℕ → List (String × List ℕ)
  | [], k, v => [(k, v)]
  | e :: rest, k, v => if e.1 = k then (k, v) :: rest else e :: mapSet rest k v

/-- Inner loop of the map construction: `for (const point of s.data)` pushes
this series' index onto the entry for the point's category. -/
def addSeriesPoints (i : ℕ) : List DataPoint → List (String × List ℕ) → List (String × List ℕ)
  | [], m => m
  | p :: ps, m => addSeriesPoints i ps (mapSet m p.x ((mapGet m p.x).getD [] ++ [i]))

/-- Outer loop over the (already bar-filtered) series list. -/
def buildBarSeriesAtX : List SeriesCfg → ℕ → List (String × List ℕ) → List (String × List ℕ)
  | [], _, m => m
  | s :: rest, i, m => buildBarSeriesAtX rest (i + 1) (addSeriesPoints i s.data m)

/-- `barSeriesAtX` of `createChart` (lines 184-193). -/
def barSeriesAtX (barSeries : List SeriesCfg) : List (String × List ℕ) :=
  buildBarSeriesAtX barSeries 0 []

/-- A computed pixel point with its originating data values. -/
structure CPoint where
  x : ℚ
  y : ℚ
  dataX : String
  dataY : ℚ
deriving DecidableEq, Repr

/-- An SVG bar rectangle's geometry. -/
structure Rect where
  x : ℚ
  y : ℚ
  w : ℚ
  h : ℚ
deriving DecidableEq, Repr

/-- Resolved bar width: `'auto'` means `bandwidth * 0.8`, unset means the
default 20. -/
def barWidthOf : BarWidthConfig → ℚ → ℚ
  | BarWidthConfig.auto, bandwidth => bandwidth * (8 / 10)
  | BarWidthConfig.fixed w, _ => w
  | BarWidthConfig.unset, _ => 20

/-- The bar loop of `renderBar`: skips points with non-positive bar height;
otherwise looks up which bar series contribute at this category
(`barSeriesAtX.get(point.dataX) ?? [seriesIndex]`), takes this series'
ordinal `indexAtX` within that group, applies a 4px gap when more than one
bar shares the slot, and centres the group on the point's band position.
(JS `indexOf` yields `-1` for a missing element; here `List.indexOf` yields
the list length, but the map construction always contains the series' own
index at its own points.) -/
def renderBarRects (cfg : BarWidthConfig) (paddingTop chartHeight : ℚ) (seriesIndex : ℕ)
    (m : List (String × List ℕ)) (bandwidth : ℚ) : List CPoint → List Rect
  | [] => []
  | p :: ps =>
      if paddingTop + chartHeight - p.y ≤ 0 then
        renderBarRects cfg paddingTop chartHeight seriesIndex m bandwidth ps
      else
        Rect.mk
          (p.x
            + (-((barWidthOf cfg bandwidth
                  + (if 1 < ((mapGet m p.dataX).getD [seriesIndex]).length then (4 : ℚ) else 0))
                  * (((mapGet m p.dataX).getD [seriesIndex]).length : ℚ)
                - (if 1 < ((mapGet m p.dataX).getD [seriesIndex]).length then (4 : ℚ) else 0)) / 2
              + ((((mapGet m p.dataX).getD [seriesIndex]).indexOf seriesIndex : ℚ)
                * (barWidthOf cfg bandwidth
                  + (if 1 < ((mapGet m p.dataX).getD [seriesIndex]).length then (4 : ℚ) else 0)))))
          p.y
          (barWidthOf cfg bandwidth)
          (paddingTop + chartHeight - p.y)
        :: renderBarRects cfg paddingTop chartHeight seriesIndex m bandwidth ps

lemma mapGet_mapSet_self (m : List (String × List ℕ)) (k : String) (v : List ℕ) :
    mapGet (mapSet m k v) k = some v := by
  induction m with
  | nil => simp [mapSet, mapGet]
  | cons e rest ih =>
      rw [mapSet]
      by_cases h : e.1 = k
      · rw [if_pos h, mapGet]
        simp
      · rw [if_neg h, mapGet, List.find?_cons_of_neg _ (by simp [h])]
        exact ih

lemma mapGet_mapSet_other (m : List (String × List ℕ)) (k k2 : String) (v : List ℕ)
    (hne : k2 ≠ k) : mapGet (mapSet m k v) k2 = mapGet m k2 := by
  have hkk : ¬ k = k2 := fun h => hne h.symm
  induction m with
  | nil =>
      rw [mapSet, mapGet, mapGet]
      simp [hkk]
  | cons e rest ih =>
      rw [mapSet]
      by_cases h : e.1 = k
      · rw [if_pos h, mapGet, mapGet,
          List.find?_cons_of_neg _ (by simp [hkk]),
          List.find?_cons_of_neg _ (by rw [h]; simp [hkk])]
      · rw [if_neg h]
        by_cases h2 : e.1 = k2
        · rw [mapGet, mapGet, List.find?_cons_of_pos _ (by simp [h2]),
            List.find?_cons_of_pos _ (by simp [h2])]
        · rw [mapGet, mapGet, List.find?_cons_of_neg _ (by simp [h2]),
            List.find?_cons_of_neg _ (by simp [h2])]
          exact ih

lemma addSeriesPoints_get (i : ℕ) (ps : List DataPoint) (c : String) :
    ∀ m, (ps.map DataPoint.x).Nodup →
    mapGet (addSeriesPoints i ps m) c
      = if c ∈ ps.map DataPoint.x then some ((mapGet m c).getD [] ++ [i])
        else mapGet m c := by
  induction ps with
  | nil =>
      intro m _
      rw [addSeriesPoints, if_neg (by simp)]
  | cons p ps ih =>
      intro m hnd
      rw [List.map_cons, List.nodup_cons] at hnd
      obtain ⟨hp, hnd'⟩ := hnd
      rw [addSeriesPoints, ih _ hnd']
      by_cases hc : c = p.x
      · subst hc
        rw [if_neg hp, if_pos (by simp), mapGet_mapSet_self]
      · by_cases hmem : c ∈ ps.map DataPoint.x
        · rw [if_pos hmem, if_pos (by simp [hmem]), mapGet_mapSet_other _ _ _ _ hc]
        · rw [if_neg hmem, if_neg (by simp [hc, hmem]), mapGet_mapSet_other _ _ _ _ hc]

lemma buildBarSeriesAtX_get (c : String) :
    ∀ (bss : List SeriesCfg) (i : ℕ) (m : List (String × List ℕ)),
    (∀ s ∈ bss, (s.data.map DataPoint.x).Nodup) →
    (mapGet (buildBarSeriesAtX bss i m) c).getD []
      = (mapGet m c).getD []
        ++ ((List.range bss.length).filter
            (fun j => decide (c ∈ ((bss.getD j default).data.map DataPoint.x)))).map
          (fun j => j + i) := by
  intro bss
  induction bss with
  | nil =>
      intro i m _
      rw [buildBarSeriesAtX]
      simp
  | cons s rest ih =>
      intro i m hnd
      rw [buildBarSeriesAtX, ih (i + 1) _ (fun a ha => hnd a (List.mem_cons_of_mem s ha)),
        addSeriesPoints_get i s.data c m (hnd s (List.mem_cons_self s rest))]
      have hfe : ((fun j => j + i) ∘ Nat.succ) = fun j : ℕ => j + (i + 1) := by
        funext j
        simp only [Function.comp_apply]
        omega
      have hpe : ((fun j => decide (c ∈ (((s :: rest).getD j default).data.map DataPoint.x)))
            ∘ Nat.succ)
          = fun j : ℕ => decide (c ∈ ((rest.getD j default).data.map DataPoint.x)) := by
        funext j
        simp only [Function.comp_apply]
        rw [show Nat.succ j = j + 1 from rfl, List.getD_cons_succ]
      rw [List.length_cons, List.range_succ_eq_map]
      by_cases hmem : c ∈ s.data.map DataPoint.x
      · rw [if_pos hmem,
          List.filter_cons_of_pos (by simpa using hmem),
          List.filter_map, List.map_cons, List.map_map, hfe, hpe]
        simp [List.append_assoc]
      · rw [if_neg hmem,
          List.filter_cons_of_neg (by simpa using hmem),
          List.filter_map, List.map_map, hfe, hpe]

/-- A single data point rendered by a series that shares its category with
exactly one other bar series (group `[0, 1]`), as series 0 of the group. -/
lemma renderBarRects_two_first (pt ch px y v bw : ℚ) (m : List (String × List ℕ))
    (c : String) (hget : mapGet m c = some [0, 1]) (hy : y < pt + ch) :
    renderBarRects BarWidthConfig.unset pt ch 0 m bw [⟨px, y, c, v⟩]
      = [⟨px - 22, y, 20, pt + ch - y⟩] := by
  have hidx : (([0, 1] : List ℕ).indexOf 0) = 0 := rfl
  simp only [renderBarRects]
  rw [if_neg (by linarith)]
  simp only [hget, Option.getD_some, hidx, barWidthOf]
  norm_num
  ring

/-- As `renderBarRects_two_first`, for the second series of the group. -/
lemma renderBarRects_two_second (pt ch px y v bw : ℚ) (m : List (String × List ℕ))
    (c : String) (hget : mapGet m c = some [0, 1]) (hy : y < pt + ch) :
    renderBarRects BarWidthConfig.unset pt ch 1 m bw [⟨px, y, c, v⟩]
      = [⟨px + 2, y, 20, pt + ch - y⟩] := by
  have hidx : (([0, 1] : List ℕ).indexOf 1) = 1 := rfl
  simp only [renderBarRects]
  rw [if_neg (by linarith)]
  simp only [hget, Option.getD_some, hidx, barWidthOf]
  norm_num

/-- C5: the group size at a category equals the number of bar series that
actually have a data point there (the `barSeriesAtX` entry lists exactly the
contributing series indices, in order); concretely, two bar series sharing
category "A" produce two equal-width (20px) rectangles placed symmetrically
about the band position `px` with a 4-pixel gap, and a third bar series with
data only at "B" changes neither the widths nor the positions of the "A"
group. -/
theorem C5_bar_grouping (bss : List SeriesCfg) (c : String)
    (hnd : ∀ s ∈ bss, (s.data.map DataPoint.x).Nodup)
    (px y0 y1 v0 v1 v2 pt ch bw : ℚ) (h0 : y0 < pt + ch) (h1 : y1 < pt + ch) :
    (mapGet (barSeriesAtX bss) c).getD []
      = (List.range bss.length).filter
          (fun j => decide (c ∈ ((bss.getD j default).data.map DataPoint.x)))
    ∧ (mapGet (barSeriesAtX
        [⟨SeriesType.bar, [⟨"A", v0⟩], BarWidthConfig.unset, 0⟩,
         ⟨SeriesType.bar, [⟨"A", v1⟩], BarWidthConfig.unset, 0⟩,
         ⟨SeriesType.bar, [⟨"B", v2⟩], BarWidthConfig.unset, 0⟩]) "A") = some [0, 1]
    ∧ renderBarRects BarWidthConfig.unset pt ch 0
        (barSeriesAtX
          [⟨SeriesType.bar, [⟨"A", v0⟩], BarWidthConfig.unset, 0⟩,
           ⟨SeriesType.bar, [⟨"A", v1⟩], BarWidthConfig.unset, 0⟩,
           ⟨SeriesType.bar, [⟨"B", v2⟩], BarWidthConfig.unset, 0⟩]) bw [⟨px, y0, "A", v0⟩]
        = [⟨px - 22, y0, 20, pt + ch - y0⟩]
    ∧ renderBarRects BarWidthConfig.unset pt ch 1
        (barSeriesAtX
          [⟨SeriesType.bar, [⟨"A", v0⟩], BarWidthConfig.unset, 0⟩,
           ⟨SeriesType.bar, [⟨"A", v1⟩], BarWidthConfig.unset, 0⟩,
           ⟨SeriesType.bar, [⟨"B", v2⟩], BarWidthConfig.unset, 0⟩]) bw [⟨px, y1, "A", v1⟩]
        = [⟨px + 2, y1, 20, pt + ch - y1⟩]
    ∧ ((px - 22) + ((px + 2) + 20)) / 2 = px
    ∧ (px + 2) - ((px - 22) + 20) = 4
    ∧ renderBarRects BarWidthConfig.unset pt ch 0
        (barSeriesAtX
          [⟨SeriesType.bar, [⟨"A", v0⟩], BarWidthConfig.unset, 0⟩,
           ⟨SeriesType.bar, [⟨"A", v1⟩], BarWidthConfig.unset, 0⟩]) bw [⟨px, y0, "A", v0⟩]
        = renderBarRects BarWidthConfig.unset pt ch 0
        (barSeriesAtX
          [⟨SeriesType.bar, [⟨"A", v0⟩], BarWidthConfig.unset, 0⟩,
           ⟨SeriesType.bar, [⟨"A", v1⟩], BarWidthConfig.unset, 0⟩,
           ⟨SeriesType.bar, [⟨"B", v2⟩], BarWidthConfig.unset, 0⟩]) bw [⟨px, y0, "A", v0⟩]
    ∧ renderBarRects BarWidthConfig.unset pt ch 1
        (barSeriesAtX
          [⟨SeriesType.bar, [⟨"A", v0⟩], BarWidthConfig.unset, 0⟩,
           ⟨SeriesType.bar, [⟨"A", v1⟩], BarWidthConfig.unset, 0⟩]) bw [⟨px, y1, "A", v1⟩]
        = renderBarRects BarWidthConfig.unset pt ch 1
        (barSeriesAtX
          [⟨SeriesType.bar, [⟨"A", v0⟩], BarWidthConfig.unset, 0⟩,
           ⟨SeriesType.bar, [⟨"A", v1⟩], BarWidthConfig.unset, 0⟩,
           ⟨SeriesType.bar, [⟨"B", v2⟩], BarWidthConfig.unset, 0⟩]) bw [⟨px, y1, "A", v1⟩] := by
  have hA3 : mapGet (barSeriesAtX
      [⟨SeriesType.bar, [⟨"A", v0⟩], BarWidthConfig.unset, 0⟩,
       ⟨SeriesType.bar, [⟨"A", v1⟩], BarWidthConfig.unset, 0⟩,
       ⟨SeriesType.bar, [⟨"B", v2⟩], BarWidthConfig.unset, 0⟩]) "A" = some [0, 1] := rfl
  have hA2 : mapGet (barSeriesAtX
      [⟨SeriesType.bar, [⟨"A", v0⟩], BarWidthConfig.unset, 0⟩,
       ⟨SeriesType.bar, [⟨"A", v1⟩], BarWidthConfig.unset, 0⟩]) "A" = some [0, 1] := rfl
  refine ⟨?_, hA3, renderBarRects_two_first pt ch px y0 v0 bw _ "A" hA3 h0,
    renderBarRects_two_second pt ch px y1 v1 bw _ "A" hA3 h1,
    by ring, by ring, ?_, ?_⟩
  · have h := buildBarSeriesAtX_get c bss 0 [] hnd
    rw [barSeriesAtX, h]
    have hnil : (mapGet [] c).getD [] = [] := rfl
    rw [hnil, List.nil_append]
    have hid : (fun j : ℕ => j + 0) = id := by
      funext j
      rfl
    rw [hid, List.map_id]
  · rw [renderBarRects_two_first pt ch px y0 v0 bw _ "A" hA2 h0,
      renderBarRects_two_first pt ch px y0 v0 bw _ "A" hA3 h0]
  · rw [renderBarRects_two_second pt ch px y1 v1 bw _ "A" hA2 h1,
      renderBarRects_two_second pt ch px y1 v1 bw _ "A" hA3 h1]

/-- Witness for C5 at concrete values `px = 100`, baseline `0 + 100`. -/
theorem C5_bar_grouping_witness :
    renderBarRects BarWidthConfig.unset 0 100 0
      (barSeriesAtX
        [⟨SeriesType.bar, [⟨"A", 30⟩], BarWidthConfig.unset, 0⟩,
         ⟨SeriesType.bar, [⟨"A", 45⟩], BarWidthConfig.unset, 0⟩,
         ⟨SeriesType.bar, [⟨"B", 12⟩], BarWidthConfig.unset, 0⟩]) 50 [⟨100, 40, "A", 30⟩]
      = [⟨78, 40, 20, 60⟩]
    ∧ renderBarRects BarWidthConfig.unset 0 100 1
      (barSeriesAtX
        [⟨SeriesType.bar, [⟨"A", 30⟩], BarWidthConfig.unset, 0⟩,
         ⟨SeriesType.bar, [⟨"A", 45⟩], BarWidthConfig.unset, 0⟩,
         ⟨SeriesType.bar, [⟨"B", 12⟩], BarWidthConfig.unset, 0⟩]) 50 [⟨100, 55, "A", 45⟩]
      = [⟨102, 55, 20, 45⟩] := by
  obtain ⟨-, -, h2, h3, -, -, -, -⟩ :=
    C5_bar_grouping [] "A" (by intro s hs; cases hs) 100 40 55 30 45 12 0 100 50
      (by norm_num) (by norm_num)
  constructor
  · rw [h2]
    norm_num
  · rw [h3]
    norm_num

/-! ## Tick generation (`src/chart.ts`, `LinearScale.ticks` lines 1003-1015
and `niceStep` lines 1020-1031).

On a zero or negative domain span the JS code runs `Math.log10` / `Math.pow`
/ division through IEEE special values (`-Infinity`, `NaN`), which make the
loop condition false on its first test.  `F` models exactly the special-value
propagation these expressions need. -/

inductive F where
  | q (x : ℚ) : F
  | nan : F
  | pinf : F
  | ninf : F
deriving DecidableEq, Repr

/-- JS division on `F` (the cases reachable from `ticks`): division by zero
gives a signed infinity (or NaN for `0/0`), NaN propagates. -/
def fdiv : F → F → F
  | F.q a, F.q b =>
      if b = 0 then (if a = 0 then F.nan else if 0 < a then F.pinf else F.ninf)
      else F.q (a / b)
  | F.nan, _ => F.nan
  | _, F.nan => F.nan
  | F.pinf, F.q b => if 0 ≤ b then F.pinf else F.ninf
  | F.ninf, F.q b => if 0 ≤ b then F.ninf else F.pinf
  | F.q _, F.pinf => F.q 0
  | F.q _, F.ninf => F.q 0
  | _, _ => F.nan

/-- JS multiplication on `F`: `Infinity * 0 = NaN`, NaN propagates. -/
def fmul : F → F → F
  | F.q a, F.q b => F.q (a * b)
  | F.nan, _ => F.nan
  | _, F.nan => F.nan
  | F.pinf, F.q b => if b = 0 then F.nan else if 0 < b then F.pinf else F.ninf
  | F.ninf, F.q b => if b = 0 then F.nan else if 0 < b then F.ninf else F.pinf
  | F.q a, F.pinf => if a = 0 then F.nan else if 0 < a then F.pinf else F.ninf
  | F.q a, F.ninf => if a = 0 then F.nan else if 0 < a then F.ninf else F.pinf
  | F.pinf, F.pinf => F.pinf
  | F.pinf, F.ninf => F.ninf
  | F.ninf, F.pinf => F.ninf
  | F.ninf, F.ninf => F.pinf

/-- JS addition on `F`. -/
def fadd : F → F → F
  | F.q a, F.q b => F.q (a + b)
  | F.nan, _ => F.nan
  | _, F.nan => F.nan
  | F.pinf, F.ninf => F.nan
  | F.ninf, F.pinf => F.nan
  | F.pinf, _ => F.pinf
  | F.ninf, _ => F.ninf
  | _, F.pinf => F.pinf
  | _, F.ninf => F.ninf

/-- `Math.ceil` on `F`. -/
def fceil : F → F
  | F.q a => F.q ((⌈a⌉ : ℤ) : ℚ)
  | x => x

/-- `Math.floor` on `F`. -/
def ffloor : F → F
  | F.q a => F.q ((⌊a⌋ : ℤ) : ℚ)
  | x => x

/-- `Math.round(t * 1e10) / 1e10` — the 10-decimal rounding applied to each
tick (JS `Math.round` is floor of `x + 1/2`, as is Lean's `round`). -/
def round10 (x : ℚ) : ℚ := ((round (x * 10 ^ 10) : ℤ) : ℚ) / 10 ^ 10

/-- `niceStep(rawStep)` (lines 1020-1031) over JS number semantics.  For a
positive rational input, `magnitude = 10^floor(log10 rawStep)` (which is
`10 ^ Int.log 10 rawStep` exactly) and the normalized mantissa snaps up
through `1, 2, 5, 10`.  A zero input runs the same code through
`log10(0) = -Infinity`, `pow(10, -Infinity) = 0`, `normalized = 0/0 = NaN`;
every `NaN <= _` test is false, so `nice = 10` and the step is `10 * 0 = 0`.
A negative input makes `log10` NaN, which propagates to a NaN step. -/
def fNiceStep (rawStep : ℚ) : F :=
  if 0 < rawStep then
    F.q ((if rawStep / (10 : ℚ) ^ (Int.log 10 rawStep) ≤ 1 then 1
      else if rawStep / (10 : ℚ) ^ (Int.log 10 rawStep) ≤ 2 then 2
      else if rawStep / (10 : ℚ) ^ (Int.log 10 rawStep) ≤ 5 then 5
      else 10) * (10 : ℚ) ^ (Int.log 10 rawStep))
  else if rawStep = 0 then F.q 0
  else F.nan

/-- `LinearScale.ticks(count)` (lines 1003-1015).  The loop
`for (t = start; t <= end + step * 0.5; t += step)` is written in closed
form: with a rational start `a` and positive rational step `s`, the `k`-th
iterate is exactly `a + k * s` and the loop runs while
`a + k * s <= b`, i.e. for `k <= (b - a) / s`, giving
`max(0, floor((b - a) / s) + 1)` iterations.  When `start` or the bound is
non-finite (zero or negative span, see `fNiceStep`) the condition fails on
the first test and no tick is produced.  A rational step `s <= 0` with a
rational start never occurs (`fNiceStep` yields `q 0` only for a zero raw
step, and then `start` is NaN), so that arm returns `[]`. -/
def fticks (d0 d1 : ℚ) (count0 : ℕ) : List ℚ :=
  let count := if count0 < 2 then 2 else count0
  let step := fNiceStep ((d1 - d0) / ((count : ℚ) - 1))
  let start := fmul (fceil (fdiv (F.q d0) step)) step
  let stop := fmul (ffloor (fdiv (F.q d1) step)) step
  let bound := fadd stop (fmul step (F.q (1 / 2)))
  match start, bound, step with
  | F.q a, F.q b, F.q s =>
      if 0 < s then
        (List.range (⌊(b - a) / s⌋ + 1).toNat).map
          (fun k : ℕ => round10 (a + (k : ℚ) * s))
      else []
  | _, _, _ => []

lemma fNiceStep_pos (r : ℚ) (hr : 0 < r) :
    ∃ s : ℚ, fNiceStep r = F.q s ∧ 0 < s := by
  rw [fNiceStep, if_pos hr]
  refine ⟨_, rfl, ?_⟩
  have hmag : (0 : ℚ) < (10 : ℚ) ^ (Int.log 10 r) := by positivity
  split_ifs <;> nlinarith [hmag]

/-- C10: `ticks` always terminates with a finite list (it is a total function
here); for a positive domain span the nice step is a strictly positive
rational, so the loop counter strictly increases past its bound; for a zero
or negative span the step or loop start degenerates to an IEEE special value
(`0`, `NaN`, `± Infinity`), the loop condition fails at once, and the empty
list is returned. -/
theorem C10_ticks_termination (d0 d1 : ℚ) (count : ℕ) :
    (d0 < d1 → ∃ s : ℚ,
      fNiceStep ((d1 - d0) / ((((if count < 2 then 2 else count) : ℕ) : ℚ) - 1)) = F.q s
      ∧ 0 < s)
    ∧ (d1 ≤ d0 → fticks d0 d1 count = []) := by
  have hc2 : 2 ≤ (if count < 2 then 2 else count) := by split <;> omega
  have hden : (0 : ℚ) < (((if count < 2 then 2 else count) : ℕ) : ℚ) - 1 := by
    have h2 : (2 : ℚ) ≤ (((if count < 2 then 2 else count) : ℕ) : ℚ) := by
      exact_mod_cast hc2
    linarith
  constructor
  · intro hd
    exact fNiceStep_pos _ (div_pos (by linarith) hden)
  · intro hd
    have hraw : (d1 - d0) / ((((if count < 2 then 2 else count) : ℕ) : ℚ) - 1) ≤ 0 :=
      div_nonpos_of_nonpos_of_nonneg (by linarith) (le_of_lt hden)
    rcases lt_or_eq_of_le hraw with hlt | heq
    · have hstep : fNiceStep
          ((d1 - d0) / ((((if count < 2 then 2 else count) : ℕ) : ℚ) - 1)) = F.nan := by
        rw [fNiceStep, if_neg (by linarith), if_neg (by linarith)]
      simp only [fticks, hstep]
      rfl
    · have hstep : fNiceStep
          ((d1 - d0) / ((((if count < 2 then 2 else count) : ℕ) : ℚ) - 1)) = F.q 0 := by
        rw [fNiceStep, if_neg (by rw [← heq]; exact lt_irrefl _), if_pos heq]
      simp only [fticks, hstep]
      rcases lt_trichotomy d0 0 with h | h | h
      · simp [fdiv, fceil, fmul, h.ne, not_lt.mpr h.le]
      · simp [fdiv, fceil, fmul, h]
      · simp [fdiv, fceil, fmul, h.ne.symm, h]

/-- Witness for C10 at domain `[0, 10]`, count 5, and the degenerate domain
`[5, 5]`. -/
theorem C10_ticks_termination_witness :
    (∃ s : ℚ,
      fNiceStep ((10 - 0) / ((((if 5 < 2 then 2 else 5 : ℕ) : ℕ) : ℚ) - 1)) = F.q s ∧ 0 < s)
    ∧ fticks 5 5 3 = [] :=
  ⟨(C10_ticks_termination 0 10 5).1 (by norm_num),
    (C10_ticks_termination 5 5 3).2 (le_refl 5)⟩

lemma round10_mono (a b : ℚ) (h : a ≤ b) : round10 a ≤ round10 b := by
  rw [round10, round10]
  have hr : round (a * 10 ^ 10) ≤ round (b * 10 ^ 10) := by
    rw [round_eq, round_eq]
    apply Int.floor_mono
    have hmul : a * 10 ^ 10 ≤ b * 10 ^ 10 := by nlinarith
    linarith
  have hcast : ((round (a * 10 ^ 10) : ℤ) : ℚ) ≤ ((round (b * 10 ^ 10) : ℤ) : ℚ) := by
    exact_mod_cast hr
  have hpow : (0 : ℚ) < 10 ^ 10 := by positivity
  exact (div_le_div_iff_of_pos_right hpow).mpr hcast

lemma round10_zero : round10 0 = 0 := by
  rw [round10]
  norm_num

lemma round10_1000 : round10 1000 = 1000 := by
  have h : (1000 : ℚ) * 10 ^ 10 = ((10 ^ 13 : ℤ) : ℚ) := by norm_num
  rw [round10, h, round_intCast]
  norm_num

/-- For a positive raw step the nice step is `k * 10^m` with
`m = floor(log10 raw)` and `k` the least of `{1, 2, 5, 10}` whose multiple of
the magnitude reaches the raw step. -/
lemma fNiceStep_spec (raw : ℚ) (hraw : 0 < raw) :
    ∃ k : ℚ, (k = 1 ∨ k = 2 ∨ k = 5 ∨ k = 10)
      ∧ fNiceStep raw = F.q (k * (10 : ℚ) ^ (Int.log 10 raw))
      ∧ (10 : ℚ) ^ (Int.log 10 raw) ≤ raw
      ∧ raw ≤ k * (10 : ℚ) ^ (Int.log 10 raw)
      ∧ ∀ k2 : ℚ, (k2 = 1 ∨ k2 = 2 ∨ k2 = 5 ∨ k2 = 10) →
          raw ≤ k2 * (10 : ℚ) ^ (Int.log 10 raw) → k ≤ k2 := by
  have hmag : (0 : ℚ) < (10 : ℚ) ^ (Int.log 10 raw) := by positivity
  have hlow : (10 : ℚ) ^ (Int.log 10 raw) ≤ raw := by
    exact_mod_cast Int.zpow_log_le_self (by norm_num : 1 < 10) hraw
  have hhigh : raw < (10 : ℚ) ^ (Int.log 10 raw + 1) := by
    exact_mod_cast Int.lt_zpow_succ_log_self (by norm_num : 1 < 10) raw
  have hsucc : (10 : ℚ) ^ (Int.log 10 raw + 1) = (10 : ℚ) ^ (Int.log 10 raw) * 10 :=
    zpow_add_one₀ (by norm_num) _
  rw [fNiceStep, if_pos hraw]
  split_ifs with h1 h2 h5
  · refine ⟨1, Or.inl rfl, rfl, hlow, ?_, ?_⟩
    · have := (div_le_one hmag).mp h1
      linarith
    · intro k2 hk2 _
      rcases hk2 with rfl | rfl | rfl | rfl <;> norm_num
  · refine ⟨2, Or.inr (Or.inl rfl), rfl, hlow, (div_le_iff₀ hmag).mp h2, ?_⟩
    intro k2 hk2 hle
    rcases hk2 with rfl | rfl | rfl | rfl
    · exact absurd ((div_le_one hmag).mpr (by linarith)) h1
    · exact le_refl 2
    · norm_num
    · norm_num
  · refine ⟨5, Or.inr (Or.inr (Or.inl rfl)), rfl, hlow, (div_le_iff₀ hmag).mp h5, ?_⟩
    intro k2 hk2 hle
    rcases hk2 with rfl | rfl | rfl | rfl
    · exact absurd ((div_le_one hmag).mpr (by linarith)) h1
    · exact absurd ((div_le_iff₀ hmag).mpr (by linarith)) h2
    · exact le_refl 5
    · norm_num
  · refine ⟨10, Or.inr (Or.inr (Or.inr rfl)), rfl, hlow, by nlinarith, ?_⟩
    intro k2 hk2 hle
    rcases hk2 with rfl | rfl | rfl | rfl
    · exact absurd ((div_le_one hmag).mpr (by linarith)) h1
    · exact absurd ((div_le_iff₀ hmag).mpr (by linarith)) h2
    · exact absurd ((div_le_iff₀ hmag).mpr (by linarith)) h5
    · exact le_refl 10

/-- With a positive rational step the loop enumerates
`ceil(d0/s), ..., floor(d1/s)` times the step, rounded to 10 decimals. -/
lemma fticks_eq (d0 d1 : ℚ) (count : ℕ) (s : ℚ)
    (hs : fNiceStep ((d1 - d0) / ((((if count < 2 then 2 else count) : ℕ) : ℚ) - 1)) = F.q s)
    (hspos : 0 < s) :
    fticks d0 d1 count
      = (List.range (⌊d1 / s⌋ - ⌈d0 / s⌉ + 1).toNat).map
          (fun k : ℕ => round10 (((⌈d0 / s⌉ : ℤ) : ℚ) * s + (k : ℚ) * s)) := by
  have hsne : s ≠ 0 := ne_of_gt hspos
  simp only [fticks, hs, fdiv, if_neg hsne, fceil, fmul, ffloor, fadd]
  rw [if_pos hspos]
  have harg : ((((⌊d1 / s⌋ : ℤ) : ℚ) * s + s * (1 / 2)) - ((⌈d0 / s⌉ : ℤ) : ℚ) * s) / s
      = ((⌊d1 / s⌋ - ⌈d0 / s⌉ : ℤ) : ℚ) + 1 / 2 := by
    push_cast
    field_simp
    ring
  rw [harg]
  have hfloor : ⌊((⌊d1 / s⌋ - ⌈d0 / s⌉ : ℤ) : ℚ) + 1 / 2⌋ = ⌊d1 / s⌋ - ⌈d0 / s⌉ := by
    rw [Int.floor_int_add]
    norm_num
  rw [hfloor]

/-- Membership characterization: the ticks are exactly the rounded multiples
`j * s` for integers `j` in `[ceil(d0/s), floor(d1/s)]`. -/
lemma fticks_mem_iff (d0 d1 : ℚ) (count : ℕ) (s : ℚ)
    (hs : fNiceStep ((d1 - d0) / ((((if count < 2 then 2 else count) : ℕ) : ℚ) - 1)) = F.q s)
    (hspos : 0 < s) (x : ℚ) :
    x ∈ fticks d0 d1 count
      ↔ ∃ j : ℤ, ⌈d0 / s⌉ ≤ j ∧ j ≤ ⌊d1 / s⌋ ∧ x = round10 ((j : ℚ) * s) := by
  rw [fticks_eq d0 d1 count s hs hspos, List.mem_map]
  constructor
  · rintro ⟨k, hk, rfl⟩
    rw [List.mem_range] at hk
    refine ⟨⌈d0 / s⌉ + k, by omega, by omega, ?_⟩
    congr 1
    push_cast
    ring
  · rintro ⟨j, hj1, hj2, rfl⟩
    refine ⟨(j - ⌈d0 / s⌉).toNat, ?_, ?_⟩
    · rw [List.mem_range]
      omega
    · congr 1
      have hj' : (((j - ⌈d0 / s⌉).toNat : ℤ)) = j - ⌈d0 / s⌉ :=
        Int.toNat_of_nonneg (by omega)
      have hcast : (((j - ⌈d0 / s⌉).toNat : ℕ) : ℚ) = (j : ℚ) - ((⌈d0 / s⌉ : ℤ) : ℚ) := by
        exact_mod_cast congrArg (fun z : ℤ => (z : ℚ)) hj'
      rw [hcast]
      ring

/-- Over the domain `[0, 1000]` the nice step always divides 1000. -/
lemma step_divides_1000 (raw s k : ℚ) (m : ℤ)
    (hraw : 0 < raw) (hraw1000 : raw ≤ 1000)
    (hm : m = Int.log 10 raw)
    (hk : k = 1 ∨ k = 2 ∨ k = 5 ∨ k = 10)
    (hs : s = k * (10 : ℚ) ^ m)
    (hlow : (10 : ℚ) ^ m ≤ raw)
    (hmin : ∀ k2 : ℚ, (k2 = 1 ∨ k2 = 2 ∨ k2 = 5 ∨ k2 = 10) →
      raw ≤ k2 * (10 : ℚ) ^ m → k ≤ k2) :
    ∃ j : ℤ, 1 ≤ j ∧ (j : ℚ) * s = 1000 := by
  have h10 : (10 : ℚ) ≠ 0 := by norm_num
  have h103 : (10 : ℚ) ^ (3 : ℤ) = 1000 := by
    rw [show (3 : ℤ) = ((3 : ℕ) : ℤ) from rfl, zpow_natCast]
    norm_num
  have h102 : (10 : ℚ) ^ (2 : ℤ) = 100 := by
    rw [show (2 : ℤ) = ((2 : ℕ) : ℤ) from rfl, zpow_natCast]
    norm_num
  have hm3 : m ≤ 3 := by
    rw [hm]
    have hlog1000 : Int.log 10 (1000 : ℚ) = 3 := by
      rw [show (1000 : ℚ) = ((1000 : ℕ) : ℚ) by norm_num, Int.log_natCast]
      exact_mod_cast Nat.log_eq_of_pow_le_of_lt_pow (by norm_num) (by norm_num)
    calc Int.log 10 raw ≤ Int.log 10 (1000 : ℚ) := Int.log_mono_right hraw hraw1000
    _ = 3 := hlog1000
  have hzp : ∀ n : ℤ, 0 ≤ n → (((10 : ℤ) ^ n.toNat : ℤ) : ℚ) = (10 : ℚ) ^ n := by
    intro n hn
    push_cast
    rw [← zpow_natCast, Int.toNat_of_nonneg hn]
  by_cases hm3' : m = 3
  · have hraweq : raw = 1000 := le_antisymm hraw1000 (by rw [hm3', h103] at hlow; exact hlow)
    have hk1 : k ≤ 1 := hmin 1 (Or.inl rfl) (by rw [hraweq, hm3', h103]; norm_num)
    have hkeq : k = 1 := by
      rcases hk with rfl | rfl | rfl | rfl
      · rfl
      · linarith
      · linarith
      · linarith
    refine ⟨1, le_refl 1, ?_⟩
    rw [hs, hkeq, hm3', h103]
    norm_num
  · have hm2 : m ≤ 2 := by omega
    have hsplit2 : (10 : ℚ) ^ ((2 : ℤ) - m) * (10 : ℚ) ^ m = 100 := by
      rw [← zpow_add₀ h10]
      rw [show (2 : ℤ) - m + m = 2 by ring]
      exact h102
    have hsplit3 : (10 : ℚ) ^ ((3 : ℤ) - m) * (10 : ℚ) ^ m = 1000 := by
      rw [← zpow_add₀ h10]
      rw [show (3 : ℤ) - m + m = 3 by ring]
      exact h103
    have hp2 : (0 : ℤ) < (10 : ℤ) ^ ((2 - m).toNat) := pow_pos (by norm_num) _
    have hp3 : (0 : ℤ) < (10 : ℤ) ^ ((3 - m).toNat) := pow_pos (by norm_num) _
    rcases hk with rfl | rfl | rfl | rfl
    · refine ⟨(10 : ℤ) ^ ((3 - m).toNat), by omega, ?_⟩
      rw [hzp _ (by omega), hs, one_mul]
      exact hsplit3
    · refine ⟨5 * (10 : ℤ) ^ ((2 - m).toNat), by nlinarith, ?_⟩
      rw [Int.cast_mul, hzp _ (by omega), hs]
      push_cast
      linear_combination 10 * hsplit2
    · refine ⟨2 * (10 : ℤ) ^ ((2 - m).toNat), by nlinarith, ?_⟩
      rw [Int.cast_mul, hzp _ (by omega), hs]
      push_cast
      linear_combination 10 * hsplit2
    · refine ⟨(10 : ℤ) ^ ((2 - m).toNat), by omega, ?_⟩
      rw [hzp _ (by omega), hs]
      linear_combination 10 * hsplit2

/-- Over `[0, 1000]` the emitted ticks include both endpoints and stay within
the domain, for every count. -/
lemma fticks_0_1000 (count : ℕ) :
    (0 : ℚ) ∈ fticks 0 1000 count
    ∧ (1000 : ℚ) ∈ fticks 0 1000 count
    ∧ ∀ x ∈ fticks 0 1000 count, 0 ≤ x ∧ x ≤ 1000 := by
  have hc2 : 2 ≤ (if count < 2 then 2 else count) := by split <;> omega
  have hden : (0 : ℚ) < (((if count < 2 then 2 else count) : ℕ) : ℚ) - 1 := by
    have h2 : (2 : ℚ) ≤ (((if count < 2 then 2 else count) : ℕ) : ℚ) := by exact_mod_cast hc2
    linarith
  have hraw : 0 < ((1000 : ℚ) - 0) / ((((if count < 2 then 2 else count) : ℕ) : ℚ) - 1) :=
    div_pos (by norm_num) hden
  obtain ⟨k, hk, hstep, hlow, hhigh, hmin⟩ := fNiceStep_spec _ hraw
  have hspos : 0 < k * (10 : ℚ)
      ^ (Int.log 10 (((1000 : ℚ) - 0) / ((((if count < 2 then 2 else count) : ℕ) : ℚ) - 1))) := by
    rcases hk with rfl | rfl | rfl | rfl <;> positivity
  have hraw1000 : ((1000 : ℚ) - 0) / ((((if count < 2 then 2 else count) : ℕ) : ℚ) - 1)
      ≤ 1000 := by
    rw [div_le_iff₀ hden]
    have h2 : (2 : ℚ) ≤ (((if count < 2 then 2 else count) : ℕ) : ℚ) := by exact_mod_cast hc2
    nlinarith
  obtain ⟨j, hj1, hjs⟩ := step_divides_1000 _ _ k _ hraw hraw1000 rfl hk rfl hlow hmin
  have hsne : k * (10 : ℚ)
      ^ (Int.log 10 (((1000 : ℚ) - 0) / ((((if count < 2 then 2 else count) : ℕ) : ℚ) - 1)))
      ≠ 0 := ne_of_gt hspos
  have hceil : ⌈(0 : ℚ) / (k * (10 : ℚ)
      ^ (Int.log 10 (((1000 : ℚ) - 0) / ((((if count < 2 then 2 else count) : ℕ) : ℚ) - 1))))⌉
      = 0 := by
    rw [zero_div, Int.ceil_zero]
  have hfl : ⌊(1000 : ℚ) / (k * (10 : ℚ)
      ^ (Int.log 10 (((1000 : ℚ) - 0) / ((((if count < 2 then 2 else count) : ℕ) : ℚ) - 1))))⌋
      = j := by
    have hq : (1000 : ℚ) / (k * (10 : ℚ)
        ^ (Int.log 10 (((1000 : ℚ) - 0) / ((((if count < 2 then 2 else count) : ℕ) : ℚ) - 1))))
        = (j : ℚ) := by
      rw [div_eq_iff hsne]
      exact hjs.symm
    rw [hq, Int.floor_intCast]
  have hmem := fticks_mem_iff 0 1000 count _ hstep hspos
  refine ⟨?_, ?_, ?_⟩
  · rw [hmem 0]
    refine ⟨0, ?_, ?_, ?_⟩
    · rw [hceil]
    · rw [hfl]
      omega
    · rw [Int.cast_zero, zero_mul, round10_zero]
  · rw [hmem 1000]
    refine ⟨j, ?_, ?_, ?_⟩
    · rw [hceil]
      omega
    · rw [hfl]
    · rw [hjs, round10_1000]
  · intro x hx
    rw [hmem x] at hx
    obtain ⟨j2, hj2a, hj2b, rfl⟩ := hx
    rw [hceil] at hj2a
    rw [hfl] at hj2b
    have hb1 : (0 : ℚ) ≤ (j2 : ℚ) * (k * (10 : ℚ)
        ^ (Int.log 10 (((1000 : ℚ) - 0) / ((((if count < 2 then 2 else count) : ℕ) : ℚ) - 1)))) :=
      mul_nonneg (by exact_mod_cast hj2a) (le_of_lt hspos)
    have hb2 : (j2 : ℚ) * (k * (10 : ℚ)
        ^ (Int.log 10 (((1000 : ℚ) - 0) / ((((if count < 2 then 2 else count) : ℕ) : ℚ) - 1))))
        ≤ 1000 := by
      have hjc : (j2 : ℚ) ≤ (j : ℚ) := by exact_mod_cast hj2b
      calc (j2 : ℚ) * (k * (10 : ℚ)
          ^ (Int.log 10 (((1000 : ℚ) - 0) / ((((if count < 2 then 2 else count) : ℕ) : ℚ) - 1))))
          ≤ (j : ℚ) * (k * (10 : ℚ)
          ^ (Int.log 10 (((1000 : ℚ) - 0) / ((((if count < 2 then 2 else count) : ℕ) : ℚ) - 1)))) :=
        mul_le_mul_of_nonneg_right hjc (le_of_lt hspos)
      _ = 1000 := hjs
    constructor
    · have h := round10_mono 0 _ hb1
      rw [round10_zero] at h
      exact h
    · have h := round10_mono _ 1000 hb2
      rw [round10_1000] at h
      exact h

/-- C8: over `[0, 1000]` `ticks` always contains both 0 and 1000 and every
tick lies within the domain; for every positive-span domain the step is
`k * 10^m` with `k` in `{1, 2, 5, 10}`, where `m` is the power-of-ten
magnitude of the raw step `span/(count-1)` and `k` is the least of
`{1, 2, 5, 10}` that the normalized mantissa snaps up to; and the ticks are
exactly the multiples of the step from `ceil(d0/step)*step` to
`floor(d1/step)*step` inclusive, each rounded to 10 decimal places. -/
theorem C8_tick_generation (d0 d1 : ℚ) (count : ℕ) (hc : 2 ≤ count) :
    (0 : ℚ) ∈ fticks 0 1000 count
    ∧ (1000 : ℚ) ∈ fticks 0 1000 count
    ∧ (∀ x ∈ fticks 0 1000 count, 0 ≤ x ∧ x ≤ 1000)
    ∧ (d0 < d1 →
        ∃ (s k : ℚ) (m : ℤ),
          fNiceStep ((d1 - d0) / ((count : ℚ) - 1)) = F.q s
          ∧ s = k * (10 : ℚ) ^ m
          ∧ (k = 1 ∨ k = 2 ∨ k = 5 ∨ k = 10)
          ∧ m = Int.log 10 ((d1 - d0) / ((count : ℚ) - 1))
          ∧ (10 : ℚ) ^ m ≤ (d1 - d0) / ((count : ℚ) - 1)
          ∧ (d1 - d0) / ((count : ℚ) - 1) ≤ s
          ∧ (∀ k2 : ℚ, (k2 = 1 ∨ k2 = 2 ∨ k2 = 5 ∨ k2 = 10) →
              (d1 - d0) / ((count : ℚ) - 1) ≤ k2 * (10 : ℚ) ^ m → k ≤ k2)
          ∧ ∀ x : ℚ, x ∈ fticks d0 d1 count
              ↔ ∃ j : ℤ, ⌈d0 / s⌉ ≤ j ∧ j ≤ ⌊d1 / s⌋ ∧ x = round10 ((j : ℚ) * s)) := by
  obtain ⟨h0, h1000, hbounds⟩ := fticks_0_1000 count
  refine ⟨h0, h1000, hbounds, ?_⟩
  intro hd
  have hif : (if count < 2 then 2 else count) = count := if_neg (by omega)
  have hcast : ((((if count < 2 then 2 else count) : ℕ) : ℚ)) = (count : ℚ) := by rw [hif]
  have hden : (0 : ℚ) < (count : ℚ) - 1 := by
    have h2 : (2 : ℚ) ≤ (count : ℚ) := by exact_mod_cast hc
    linarith
  have hraw : 0 < (d1 - d0) / ((count : ℚ) - 1) := div_pos (by linarith) hden
  obtain ⟨k, hk, hstep, hlow, hhigh, hmin⟩ := fNiceStep_spec _ hraw
  have hspos : 0 < k * (10 : ℚ) ^ (Int.log 10 ((d1 - d0) / ((count : ℚ) - 1))) := by
    rcases hk with rfl | rfl | rfl | rfl <;> positivity
  have hstep' : fNiceStep ((d1 - d0) / ((((if count < 2 then 2 else count) : ℕ) : ℚ) - 1))
      = F.q (k * (10 : ℚ) ^ (Int.log 10 ((d1 - d0) / ((count : ℚ) - 1)))) := by
    rw [hcast]
    exact hstep
  exact ⟨k * (10 : ℚ) ^ (Int.log 10 ((d1 - d0) / ((count : ℚ) - 1))), k,
    Int.log 10 ((d1 - d0) / ((count : ℚ) - 1)), hstep, rfl, hk, rfl, hlow, hhigh, hmin,
    fun x => fticks_mem_iff d0 d1 count _ hstep' hspos x⟩

/-- Witness for C8 at count 5 over `[0, 1000]`. -/
theorem C8_tick_generation_witness :
    (0 : ℚ) ∈ fticks 0 1000 5 ∧ (1000 : ℚ) ∈ fticks 0 1000 5 :=
  ⟨(C8_tick_generation 0 1000 5 (by norm_num)).1,
    (C8_tick_generation 0 1000 5 (by norm_num)).2.1⟩

end SwpCharting
